import Mathlib

/-!
Unified camera model (basalt-headers, `unified_camera.hpp`)

A shallow embedding of `basalt::UnifiedCamera<Scalar>`.

The class is a template over its scalar type and takes `sqrt` from the
scalar type, so the embedding is generic over an ordered field `S` and is
handed the square root as a function `sqrt : S → S`.  The theorems
instantiate `S` with the real numbers and `sqrt` with `Real.sqrt`.

Vectors are functions on `Fin n` (`Vec2`, `Vec3`, `Vec4`, `VecN`), matrices
are `Matrix (Fin r) (Fin c) S`.  The output parameters of `project` and
`unproject` become the fields of a result structure; the Jacobian fields
hold what the source writes into the Jacobian when the caller asks for it.
The 3D point is the three-component case of the source's point template.
-/

namespace basalt

/-- Eigen::Matrix<Scalar, 2, 1>. -/
abbrev Vec2 (S : Type) := Fin 2 → S

/-- Eigen::Matrix<Scalar, 3, 1>: a 3D point in the camera frame. -/
abbrev Vec3 (S : Type) := Fin 3 → S

/-- Eigen::Matrix<Scalar, 4, 1>. -/
abbrev Vec4 (S : Type) := Fin 4 → S

/-- Eigen::Matrix<Scalar, N, 1> with N = 5: [fx, fy, cx, cy, alpha]. -/
abbrev VecN (S : Type) := Fin 5 → S

/-- The class UnifiedCamera: its only data member is the vector param_. -/
structure UnifiedCamera (S : Type) where
  param_ : VecN S

/-- What project writes: the point proj, the two Jacobians, and the flag it returns. -/
structure ProjectResult (S : Type) where
  proj : Vec2 S
  d_proj_d_p3d : Matrix (Fin 2) (Fin 3) S
  d_proj_d_param : Matrix (Fin 2) (Fin 5) S
  is_valid : Bool

/-- What unproject writes: the point p3d, the two Jacobians, and the flag it returns. -/
structure UnprojectResult (S : Type) where
  p3d : Vec3 S
  d_p3d_d_proj : Matrix (Fin 3) (Fin 2) S
  d_p3d_d_param : Matrix (Fin 3) (Fin 5) S
  is_valid : Bool

section Model

variable {S : Type} [LinearOrderedField S]

/-- std::clamp(v, lo, hi): lo when v < lo, hi when hi < v, and v otherwise. -/
def clamp (v lo hi : S) : S :=
  if v < lo then lo else if hi < v then hi else v

namespace UnifiedCamera

/-- UnifiedCamera(): the default constructor, param_.setZero(). -/
def default : UnifiedCamera S := ⟨fun _ => 0⟩

/-- UnifiedCamera(const VecN& p): the constructor from a vector of intrinsics. -/
def ofVecN (p : VecN S) : UnifiedCamera S := ⟨p⟩

/-- The member getParam. -/
def getParam (cam : UnifiedCamera S) : VecN S := cam.param_

/-- The member project (lines 121-194). -/
def project (sqrt : S → S) (cam : UnifiedCamera S) (p3d : Vec3 S) : ProjectResult S :=
  let fx := cam.param_ 0
  let fy := cam.param_ 1
  let cx := cam.param_ 2
  let cy := cam.param_ 3
  let alpha := cam.param_ 4
  let x := p3d 0
  let y := p3d 1
  let z := p3d 2
  let r2 := x * x + y * y
  let rho2 := r2 + z * z
  let rho := sqrt rho2
  let norm := alpha * rho + (1 - alpha) * z
  let mx := x / norm
  let my := y / norm
  let w := if alpha > 1 / 2 then (1 - alpha) / alpha else alpha / (1 - alpha)
  let denom := norm * norm * rho
  let mid := -(alpha * x * y)
  let add := norm * rho
  let addz := alpha * z + (1 - alpha) * rho
  let norm2 := norm * norm
  let tmp_x := -fx * x / norm2
  let tmp_y := -fy * y / norm2
  let tmp4 := rho - z
  { proj := ![fx * mx + cx, fy * my + cy]
    d_proj_d_p3d :=
      (Matrix.of ![![fx * (add - x * x * alpha), fx * mid, -fx * x * addz],
                   ![fy * mid, fy * (add - y * y * alpha), -fy * y * addz]]).map
        (fun e => e / denom)
    d_proj_d_param :=
      Matrix.of ![![mx, 0, 1, 0, tmp_x * tmp4],
                  ![0, my, 0, 1, tmp_y * tmp4]]
    is_valid := decide (z > -w * rho) }

/-- The member unproject (lines 227-325). -/
def unproject (sqrt : S → S) (cam : UnifiedCamera S) (proj : Vec2 S) : UnprojectResult S :=
  let fx := cam.param_ 0
  let fy := cam.param_ 1
  let cx := cam.param_ 2
  let cy := cam.param_ 3
  let alpha := cam.param_ 4
  let u := proj 0
  let v := proj 1
  let xi := alpha / (1 - alpha)
  let mxx := (u - cx) / fx
  let myy := (v - cy) / fy
  let mx := (1 - alpha) * mxx
  let my := (1 - alpha) * myy
  let r2 := mx * mx + my * my
  let xi2 := xi * xi
  let n := sqrt (1 + (1 - xi2) * r2)
  let m := 1 + r2
  let k := (xi + n) / m
  let dk_dmx := -2 * mx * (n + xi) / (m * m) + mx * (1 - xi2) / (n * m)
  let dk_dmy := -2 * my * (n + xi) / (m * m) + my * (1 - xi2) / (n * m)
  let c0 : Vec3 S :=
    fun i => ![(dk_dmx * mx + k) / fx, dk_dmx * my / fx, dk_dmx / fx] i * (1 - alpha)
  let c1 : Vec3 S :=
    fun i => ![dk_dmy * mx / fy, (dk_dmy * my + k) / fy, dk_dmy / fy] i * (1 - alpha)
  let d_xi_d_alpha := 1 / ((1 - alpha) * (1 - alpha))
  let d_m_d_alpha := -2 * (1 - alpha) * (mxx * mxx + myy * myy)
  let d_n_d_alpha := -(mxx * mxx + myy * myy) / n
  let dk_d_alpha := ((d_xi_d_alpha + d_n_d_alpha) * m - d_m_d_alpha * (xi + n)) / (m * m)
  { p3d := ![k * mx, k * my, k - xi]
    d_p3d_d_proj := Matrix.of (fun i j => ![c0 i, c1 i] j)
    d_p3d_d_param :=
      Matrix.of (fun i j =>
        ![-mxx * c0 i, -myy * c1 i, -c0 i, -c1 i,
          ![dk_d_alpha * mx - k * mxx, dk_d_alpha * my - k * myy,
            dk_d_alpha - d_xi_d_alpha] i] j)
    is_valid := !(decide (alpha > 1 / 2) && decide (r2 ≥ 1 / (2 * alpha - 1))) }

/-- The local r2 of unproject (lines 244-252): mx * mx + my * my. -/
def unproject_r2 (cam : UnifiedCamera S) (proj : Vec2 S) : S :=
  let fx := cam.param_ 0
  let fy := cam.param_ 1
  let cx := cam.param_ 2
  let cy := cam.param_ 3
  let alpha := cam.param_ 4
  let u := proj 0
  let v := proj 1
  let mxx := (u - cx) / fx
  let myy := (v - cy) / fy
  let mx := (1 - alpha) * mxx
  let my := (1 - alpha) * myy
  mx * mx + my * my

/-- The argument unproject hands to sqrt (line 260): 1 + (1 - xi2) * r2. -/
def unproject_radicand (cam : UnifiedCamera S) (proj : Vec2 S) : S :=
  let alpha := cam.param_ 4
  let xi := alpha / (1 - alpha)
  let xi2 := xi * xi
  1 + (1 - xi2) * unproject_r2 cam proj

/-- The member setFromInit (lines 333-339). -/
def setFromInit (_cam : UnifiedCamera S) (init : Vec4 S) : UnifiedCamera S :=
  ⟨![init 0, init 1, init 2, init 3, 1 / 2]⟩

/-- The member operator+= (lines 345-349): add inc, then clamp alpha to [0, 1]. -/
def operator_plus_eq (cam : UnifiedCamera S) (inc : VecN S) : UnifiedCamera S :=
  let param1 : VecN S := fun i => cam.param_ i + inc i
  ⟨Function.update param1 4 (clamp (param1 4) 0 1)⟩

/-- The first camera of getTestProjections (Euroc). -/
def testProjectionEuroc : UnifiedCamera S :=
  ⟨![460.76484651566468, 459.4051018049483, 365.8937161309615, 249.33499869752445,
     0.5903365915227143]⟩

/-- The second camera of getTestProjections (TUM VI 512). -/
def testProjectionTumVi : UnifiedCamera S :=
  ⟨![191.14799816648748, 191.13150946585135, 254.95857715233118, 256.8815466235898,
     0.6291060871161842]⟩

/-- The member getTestProjections. -/
def getTestProjections : List (UnifiedCamera S) :=
  [testProjectionEuroc, testProjectionTumVi]

/-- The increment applied n times with the all-zero vector. -/
def zero_increments (n : Nat) (cam : UnifiedCamera S) : UnifiedCamera S :=
  Nat.iterate (fun c => operator_plus_eq c (fun _ => 0)) n cam

end UnifiedCamera

end Model

/-! Theorems -/

namespace UnifiedCamera

/-! Helper lemmas -/

theorem clamp_eq_min_max {S : Type} [LinearOrderedField S] (v : S) :
    clamp v 0 1 = min (max v 0) 1 := by
  unfold clamp
  split_ifs with h1 h2
  · rw [max_eq_right h1.le]; simp
  · rw [max_eq_left (not_lt.mp h1), min_eq_right h2.le]
  · rw [max_eq_left (not_lt.mp h1), min_eq_left (not_lt.mp h2)]

theorem clamp_of_mem {S : Type} [LinearOrderedField S] (v : S) (h0 : 0 ≤ v) (h1 : v ≤ 1) :
    clamp v 0 1 = v := by
  unfold clamp
  rw [if_neg (not_lt.mpr h0), if_neg (not_lt.mpr h1)]

theorem clamp_mem {S : Type} [LinearOrderedField S] (v : S) :
    0 ≤ clamp v 0 1 ∧ clamp v 0 1 ≤ 1 := by
  rw [clamp_eq_min_max]
  exact ⟨le_min (le_max_right _ _) zero_le_one, min_le_right _ _⟩

/-- The radicand is what unproject hands to sqrt: two square roots that agree there
give the same unprojection. -/
theorem unproject_congr_sqrt {S : Type} [LinearOrderedField S] (s1 s2 : S → S)
    (cam : UnifiedCamera S) (proj : Vec2 S)
    (h : s1 (unproject_radicand cam proj) = s2 (unproject_radicand cam proj)) :
    unproject s1 cam proj = unproject s2 cam proj := by
  simp only [unproject_radicand, unproject_r2] at h
  simp only [unproject, h]

/-- The flag of unproject is the radius test on unproject_r2 (line 256). -/
theorem unproject_is_valid_eq {S : Type} [LinearOrderedField S] (sq : S → S)
    (cam : UnifiedCamera S) (proj : Vec2 S) :
    (unproject sq cam proj).is_valid
      = !(decide (cam.param_ 4 > 1 / 2)
          && decide (unproject_r2 cam proj ≥ 1 / (2 * cam.param_ 4 - 1))) := rfl

/-- A valid projection has rho > 0, norm > 0 and (1 - alpha) * rho + alpha * z > 0. -/
theorem project_valid_core (α x y z : ℝ) (ha0 : 0 ≤ α) (ha1 : α < 1)
    (hv : z > -(if α > 1 / 2 then (1 - α) / α else α / (1 - α)) *
      Real.sqrt (x * x + y * y + z * z)) :
    0 < Real.sqrt (x * x + y * y + z * z) ∧
    0 < α * Real.sqrt (x * x + y * y + z * z) + (1 - α) * z ∧
    0 < (1 - α) * Real.sqrt (x * x + y * y + z * z) + α * z := by
  have hs : 0 ≤ x * x + y * y + z * z := by
    nlinarith [mul_self_nonneg x, mul_self_nonneg y, mul_self_nonneg z]
  have hrho0 : 0 ≤ Real.sqrt (x * x + y * y + z * z) := Real.sqrt_nonneg _
  have hrho2 : Real.sqrt (x * x + y * y + z * z) * Real.sqrt (x * x + y * y + z * z)
      = x * x + y * y + z * z := Real.mul_self_sqrt hs
  generalize Real.sqrt (x * x + y * y + z * z) = rho at *
  have h1a : 0 < 1 - α := by linarith
  have hzle : -rho ≤ z := by nlinarith [mul_self_nonneg x, mul_self_nonneg y]
  have hrho : 0 < rho := by
    rcases hrho0.lt_or_eq with h | h
    · exact h
    · exfalso
      rw [← h] at hv hrho2
      have hz : z = 0 := by
        nlinarith [mul_self_nonneg x, mul_self_nonneg y, mul_self_nonneg z]
      simp [hz] at hv
  refine ⟨hrho, ?_⟩
  split_ifs at hv with h
  · have ha : 0 < α := by linarith
    have hq : 0 < (1 - α) * rho + α * z := by
      have : -((1 - α) / α) * rho = -((1 - α) * rho) / α := by field_simp; ring
      rw [this, gt_iff_lt, div_lt_iff₀ ha] at hv
      linarith
    refine ⟨?_, hq⟩
    nlinarith
  · push_neg at h
    have hn : 0 < α * rho + (1 - α) * z := by
      have : -(α / (1 - α)) * rho = -(α * rho) / (1 - α) := by field_simp
      rw [this, gt_iff_lt, div_lt_iff₀ h1a] at hv
      linarith
    refine ⟨hn, ?_⟩
    rcases ha0.lt_or_eq with h0 | h0
    · nlinarith
    · rw [← h0]; simpa using hrho

/-- At a projected point the radicand of unproject is the square of
((1 - alpha) * rho + alpha * z) / norm, so its square root is that quotient. -/
theorem sqrt_radicand_core (α x y z rho : ℝ) (ha1 : α < 1)
    (hrho2 : rho * rho = x * x + y * y + z * z)
    (hn : 0 < α * rho + (1 - α) * z) (hq : 0 ≤ (1 - α) * rho + α * z) :
    Real.sqrt (1 + (1 - α / (1 - α) * (α / (1 - α))) *
      ((1 - α) * (x / (α * rho + (1 - α) * z)) * ((1 - α) * (x / (α * rho + (1 - α) * z))) +
       (1 - α) * (y / (α * rho + (1 - α) * z)) * ((1 - α) * (y / (α * rho + (1 - α) * z)))))
      = ((1 - α) * rho + α * z) / (α * rho + (1 - α) * z) := by
  have h1a : 0 < 1 - α := by linarith
  have hn0 := hn.ne.symm
  have h1a0 := h1a.ne.symm
  have key : (α * rho + (1 - α) * z) ^ 2 + ((1 - α) ^ 2 - α ^ 2) * (x * x + y * y)
      = ((1 - α) * rho + α * z) ^ 2 := by
    linear_combination (2 * α - 1) * hrho2
  rw [← Real.sqrt_sq (div_nonneg hq hn.le)]
  congr 1
  rw [div_pow, ← key]
  field_simp
  ring

/-- At a projected point the factor k of unproject is norm / ((1 - alpha) * rho). -/
theorem roundtrip_core (α x y z rho : ℝ) (ha1 : α < 1) (hrho : 0 < rho)
    (hrho2 : rho * rho = x * x + y * y + z * z)
    (hn : 0 < α * rho + (1 - α) * z) :
    (α / (1 - α) + ((1 - α) * rho + α * z) / (α * rho + (1 - α) * z)) /
      (1 + ((1 - α) * (x / (α * rho + (1 - α) * z)) * ((1 - α) * (x / (α * rho + (1 - α) * z))) +
       (1 - α) * (y / (α * rho + (1 - α) * z)) * ((1 - α) * (y / (α * rho + (1 - α) * z)))))
      = (α * rho + (1 - α) * z) / ((1 - α) * rho) := by
  have h1a : 0 < 1 - α := by linarith
  have h1a0 := h1a.ne.symm
  have hr0 := hrho.ne.symm
  generalize hN : α * rho + (1 - α) * z = nrm at *
  have hn0 : nrm ≠ 0 := hn.ne.symm
  have key : nrm ^ 2 + (1 - α) ^ 2 * (x * x + y * y)
      = rho * (α * nrm + (1 - α) * ((1 - α) * rho + α * z)) := by
    rw [← hN]
    linear_combination (-(1 - α) ^ 2) * hrho2
  have hQ : α * nrm + (1 - α) * ((1 - α) * rho + α * z) ≠ 0 := by
    intro h0
    rw [h0, mul_zero] at key
    nlinarith [mul_self_nonneg x, mul_self_nonneg y, sq_nonneg (1 - α), pow_pos hn 2,
      mul_nonneg (sq_nonneg (1 - α)) (add_nonneg (mul_self_nonneg x) (mul_self_nonneg y))]
  have hm : 1 + ((1 - α) * (x / nrm) * ((1 - α) * (x / nrm)) +
      (1 - α) * (y / nrm) * ((1 - α) * (y / nrm)))
      = rho * (α * nrm + (1 - α) * ((1 - α) * rho + α * z)) / nrm ^ 2 := by
    rw [← key]
    field_simp
    ring
  rw [hm]
  field_simp
  ring

/-- The Euroc test camera reports the point (0.1, 0.2, 1.0) valid. -/
theorem euroc_point_valid :
    ((testProjectionEuroc (S := ℝ)).project Real.sqrt ![0.1, 0.2, 1.0]).is_valid = true := by
  simp only [project, testProjectionEuroc, decide_eq_true_eq, Matrix.cons_val_zero,
    Matrix.cons_val_one, Matrix.head_cons, Matrix.cons_val_two, Matrix.tail_cons,
    Matrix.cons_val_four]
  have h := Real.sqrt_nonneg ((0.1 : ℝ) * 0.1 + 0.2 * 0.2 + 1.0 * 1.0)
  rw [if_pos (by norm_num)]
  have hw : (0 : ℝ) ≤ (1 - 0.5903365915227143) / 0.5903365915227143 := by norm_num
  nlinarith [mul_nonneg hw h]

/-! C1: round trip project, then unproject -/

/-- C1: for fx ≠ 0, fy ≠ 0 and 0 ≤ alpha < 1, when project reports the 3D point p
valid, unproject of the projected 2D point returns p divided by its (positive)
Euclidean length. -/
theorem project_unproject_roundtrip (cam : UnifiedCamera ℝ) (p : Vec3 ℝ)
    (hfx : cam.param_ 0 ≠ 0) (hfy : cam.param_ 1 ≠ 0)
    (ha0 : 0 ≤ cam.param_ 4) (ha1 : cam.param_ 4 < 1)
    (hv : (cam.project Real.sqrt p).is_valid = true) :
    0 < Real.sqrt (p 0 * p 0 + p 1 * p 1 + p 2 * p 2) ∧
    (cam.unproject Real.sqrt (cam.project Real.sqrt p).proj).p3d
      = fun i => p i / Real.sqrt (p 0 * p 0 + p 1 * p 1 + p 2 * p 2) := by
  simp only [project, decide_eq_true_eq] at hv
  obtain ⟨hrho, hn, hq⟩ := project_valid_core _ _ _ _ ha0 ha1 hv
  refine ⟨hrho, ?_⟩
  have hrho2 := Real.mul_self_sqrt
    (show 0 ≤ p 0 * p 0 + p 1 * p 1 + p 2 * p 2 by
      nlinarith [mul_self_nonneg (p 0), mul_self_nonneg (p 1), mul_self_nonneg (p 2)])
  have h1a : (1 : ℝ) - cam.param_ 4 ≠ 0 := by linarith
  have hx : ∀ f c t : ℝ, f ≠ 0 → (f * t + c - c) / f = t := by
    intro f c t hf; field_simp
  simp only [unproject, project, Matrix.cons_val_zero, Matrix.cons_val_one, Matrix.head_cons,
    hx _ _ _ hfx, hx _ _ _ hfy]
  rw [sqrt_radicand_core _ _ _ _ _ ha1 hrho2 hn hq.le, roundtrip_core _ _ _ _ _ ha1 hrho hrho2 hn]
  funext i
  fin_cases i
  · simp; field_simp; ring
  · simp; field_simp; ring
  · simp; field_simp; ring

/-- C1 at the Euroc test camera and the point (0.1, 0.2, 1.0). -/
theorem project_unproject_roundtrip_witness :
    ((testProjectionEuroc (S := ℝ)).project Real.sqrt ![0.1, 0.2, 1.0]).is_valid = true ∧
    ((testProjectionEuroc (S := ℝ)).unproject Real.sqrt
        ((testProjectionEuroc (S := ℝ)).project Real.sqrt ![0.1, 0.2, 1.0]).proj).p3d
      = fun i => (![0.1, 0.2, 1.0] : Vec3 ℝ) i /
          Real.sqrt ((0.1 : ℝ) * 0.1 + 0.2 * 0.2 + 1.0 * 1.0) :=
  ⟨euroc_point_valid,
   (project_unproject_roundtrip testProjectionEuroc ![0.1, 0.2, 1.0]
      (by simp [testProjectionEuroc]; norm_num) (by simp [testProjectionEuroc]; norm_num)
      (by simp [testProjectionEuroc]; norm_num) (by simp [testProjectionEuroc]; norm_num)
      euroc_point_valid).2⟩

/-! ### C2, C3, C4: the radius test of unproject

The flag of unproject compares r2 with 1 / (2 * alpha - 1); the range documented on
the function, and the one on which the radicand is non-negative, is
r2 ≤ (1 - alpha)^2 / (2 * alpha - 1).  The three evaluations below are at
the camera [1, 1, 0, 0, 3/4] and the 2D point (4, 0), where r2 = 1 lies between
the two bounds 1/8 and 2. -/

/-- C2 (evaluation at the failing input): at the camera [1, 1, 0, 0, 3/4] the 2D point
(4, 0) is reported valid by unproject, its radicand is negative, and whatever value the
square root takes on negative numbers, projecting the returned vector does not give
(4, 0) back. -/
theorem unproject_valid_not_reprojectable (sq : ℝ → ℝ)
    (hsq : ∀ t : ℝ, 0 ≤ t → sq t = Real.sqrt t) :
    (unproject sq ⟨![1, 1, 0, 0, 3 / 4]⟩ ![4, 0]).is_valid = true ∧
    unproject_radicand (S := ℝ) ⟨![1, 1, 0, 0, 3 / 4]⟩ ![4, 0] < 0 ∧
    (project sq ⟨![1, 1, 0, 0, 3 / 4]⟩
        (unproject sq ⟨![1, 1, 0, 0, 3 / 4]⟩ ![4, 0]).p3d).proj ≠ ![4, 0] := by
  refine ⟨?_, ?_, ?_⟩
  · simp [unproject]; norm_num
  · simp [unproject_radicand, unproject_r2]; norm_num
  · intro h
    have h0 := congrFun h 0
    simp only [unproject, project, Matrix.cons_val_zero, Matrix.cons_val_one,
      Matrix.head_cons, Matrix.cons_val_two, Matrix.tail_cons, Matrix.cons_val_four,
      Matrix.cons_val_three] at h0
    norm_num at h0
    generalize sq (-7) = s at h0
    have hnn : (0 : ℝ) ≤ (3 + s) / 2 * ((3 + s) / 2) + ((3 + s) / 2 - 3) * ((3 + s) / 2 - 3) := by
      nlinarith [mul_self_nonneg ((3 + s) / 2), mul_self_nonneg ((3 + s) / 2 - 3)]
    rw [hsq _ hnn] at h0
    have hr2 := Real.mul_self_sqrt hnn
    generalize Real.sqrt ((3 + s) / 2 * ((3 + s) / 2) + ((3 + s) / 2 - 3) * ((3 + s) / 2 - 3))
      = rho at h0 hr2
    by_cases hn : 3 / 4 * rho + 1 / 4 * ((3 + s) / 2 - 3) = 0
    · rw [hn] at h0; norm_num at h0
    · rw [div_eq_iff hn] at h0
      have hrho : rho = 1 := by linarith
      rw [hrho] at hr2
      nlinarith [sq_nonneg s]

/-- C2: the evaluation holds in particular for the real square root. -/
theorem unproject_valid_not_reprojectable_witness :
    (∀ t : ℝ, 0 ≤ t → Real.sqrt t = Real.sqrt t) ∧
    ((unproject Real.sqrt ⟨![1, 1, 0, 0, 3 / 4]⟩ ![4, 0]).is_valid = true ∧
    unproject_radicand (S := ℝ) ⟨![1, 1, 0, 0, 3 / 4]⟩ ![4, 0] < 0 ∧
    (project Real.sqrt ⟨![1, 1, 0, 0, 3 / 4]⟩
        (unproject Real.sqrt ⟨![1, 1, 0, 0, 3 / 4]⟩ ![4, 0]).p3d).proj ≠ ![4, 0]) :=
  ⟨fun _ _ => rfl, unproject_valid_not_reprojectable Real.sqrt (fun _ _ => rfl)⟩

/-- C3 (evaluation at the failing input): at the camera [1, 1, 0, 0, 3/4] unproject
reports the 2D point (4, 0) valid although its radicand 1 + (1 - xi^2) * r2 is -7. -/
theorem unproject_valid_negative_radicand :
    (unproject Real.sqrt ⟨![1, 1, 0, 0, 3 / 4]⟩ ![4, 0]).is_valid = true ∧
    unproject_radicand (S := ℝ) ⟨![1, 1, 0, 0, 3 / 4]⟩ ![4, 0] = -7 := by
  constructor
  · simp [unproject]; norm_num
  · simp [unproject_radicand, unproject_r2]; norm_num

/-- C4 (evaluation at the failing input): at the camera [1, 1, 0, 0, 3/4], where
alpha > 0.5, unproject reports the 2D point (4, 0) valid although its r2 = 1 exceeds
the documented bound (1 - alpha)^2 / (2 * alpha - 1) = 1/8. -/
theorem unproject_valid_outside_documented_range :
    (unproject Real.sqrt ⟨![1, 1, 0, 0, 3 / 4]⟩ ![4, 0]).is_valid = true ∧
    unproject_r2 (S := ℝ) ⟨![1, 1, 0, 0, 3 / 4]⟩ ![4, 0] = 1 ∧
    ((1 : ℝ) - 3 / 4) ^ 2 / (2 * (3 / 4) - 1) = 1 / 8 ∧
    ¬ (unproject_r2 (S := ℝ) ⟨![1, 1, 0, 0, 3 / 4]⟩ ![4, 0]
        ≤ ((1 : ℝ) - 3 / 4) ^ 2 / (2 * (3 / 4) - 1)) := by
  have hr : unproject_r2 (S := ℝ) ⟨![1, 1, 0, 0, 3 / 4]⟩ ![4, 0] = 1 := by
    simp [unproject_r2]; norm_num
  refine ⟨?_, hr, by norm_num, ?_⟩
  · simp [unproject]; norm_num
  · rw [hr]; norm_num

/-! Derivatives: general lemmas -/

/-- The quotient rule for real-valued functions on a normed space. -/
theorem hasFDerivAt_div_real {E : Type} [NormedAddCommGroup E] [NormedSpace ℝ E]
    (c d : E → ℝ) (c' d' : E →L[ℝ] ℝ) (x : E)
    (hc : HasFDerivAt c c' x) (hd : HasFDerivAt d d' x) (hx : d x ≠ 0) :
    HasFDerivAt (fun y => c y / d y) ((d x)⁻¹ • c' - (c x / d x / d x) • d') x := by
  have h := hc.mul ((hasDerivAt_inv hx).comp_hasFDerivAt x hd)
  refine (h.congr_fderiv ?_)
  ext v
  simp only [ContinuousLinearMap.add_apply, ContinuousLinearMap.smul_apply,
    ContinuousLinearMap.sub_apply, smul_eq_mul]
  field_simp
  ring

/-- Coordinate i of a vector is differentiable, with derivative the projection. -/
theorem hasFDerivAt_coord {n : ℕ} (i : Fin n) (p : Fin n → ℝ) :
    HasFDerivAt (fun q : Fin n → ℝ => q i)
      (ContinuousLinearMap.proj (R := ℝ) (φ := fun _ : Fin n => ℝ) i) p :=
  hasFDerivAt_apply i p

/-- When a matrix is the derivative of a map, its entry (i, j) is the derivative of
output i along input coordinate j. -/
theorem hasDerivAt_of_hasFDerivAt_matrix {n m : ℕ} (f : (Fin n → ℝ) → (Fin m → ℝ))
    (J : Matrix (Fin m) (Fin n) ℝ) (p : Fin n → ℝ)
    (h : HasFDerivAt f (LinearMap.toContinuousLinearMap (Matrix.mulVecLin J)) p)
    (i : Fin m) (j : Fin n) :
    HasDerivAt (fun t => f (Function.update p j t) i) (J i j) (p j) := by
  have hp : Function.update p j (p j) = p := Function.update_eq_self j p
  have h1 : HasFDerivAt f (LinearMap.toContinuousLinearMap (Matrix.mulVecLin J))
      (Function.update p j (p j)) := by rw [hp]; exact h
  have h2 := h1.comp_hasDerivAt (p j) (hasDerivAt_update p j (p j))
  have h3 := (hasDerivAt_pi.mp h2) i
  convert h3 using 1
  simp

/-- Row i of a matrix with two columns, applied to a vector. -/
theorem mulVecLin_row_two {m : ℕ} (J : Matrix (Fin m) (Fin 2) ℝ) (i : Fin m) (v : Fin 2 → ℝ) :
    ((ContinuousLinearMap.proj (R := ℝ) (φ := fun _ : Fin m => ℝ) i).comp
      (LinearMap.toContinuousLinearMap (Matrix.mulVecLin J))) v
      = J i 0 * v 0 + J i 1 * v 1 := by
  simp [Matrix.mulVec, Matrix.dotProduct, Fin.sum_univ_two]

/-- Row i of a matrix with three columns, applied to a vector. -/
theorem mulVecLin_row_three {m : ℕ} (J : Matrix (Fin m) (Fin 3) ℝ) (i : Fin m) (v : Fin 3 → ℝ) :
    ((ContinuousLinearMap.proj (R := ℝ) (φ := fun _ : Fin m => ℝ) i).comp
      (LinearMap.toContinuousLinearMap (Matrix.mulVecLin J))) v
      = J i 0 * v 0 + J i 1 * v 1 + J i 2 * v 2 := by
  simp [Matrix.mulVec, Matrix.dotProduct, Fin.sum_univ_three]

/-- Row i of a matrix with five columns, applied to a vector. -/
theorem mulVecLin_row_five {m : ℕ} (J : Matrix (Fin m) (Fin 5) ℝ) (i : Fin m) (v : Fin 5 → ℝ) :
    ((ContinuousLinearMap.proj (R := ℝ) (φ := fun _ : Fin m => ℝ) i).comp
      (LinearMap.toContinuousLinearMap (Matrix.mulVecLin J))) v
      = J i 0 * v 0 + J i 1 * v 1 + J i 2 * v 2 + J i 3 * v 3 + J i 4 * v 4 := by
  simp [Matrix.mulVec, Matrix.dotProduct, Fin.sum_univ_five]

/-! C5, C6: the Jacobians of project -/

/-- The derivative of rho = sqrt(x^2 + y^2 + z^2) away from the origin. -/
theorem hasFDerivAt_rho (p : Vec3 ℝ)
    (hrho : 0 < Real.sqrt (p 0 * p 0 + p 1 * p 1 + p 2 * p 2)) :
    HasFDerivAt (fun q : Vec3 ℝ => Real.sqrt (q 0 * q 0 + q 1 * q 1 + q 2 * q 2))
      ((Real.sqrt (p 0 * p 0 + p 1 * p 1 + p 2 * p 2))⁻¹ •
        (p 0 • ContinuousLinearMap.proj (R := ℝ) (φ := fun _ : Fin 3 => ℝ) 0 +
         p 1 • ContinuousLinearMap.proj (R := ℝ) (φ := fun _ : Fin 3 => ℝ) 1 +
         p 2 • ContinuousLinearMap.proj (R := ℝ) (φ := fun _ : Fin 3 => ℝ) 2)) p := by
  have h0 := hasFDerivAt_coord 0 p
  have h1 := hasFDerivAt_coord 1 p
  have h2 := hasFDerivAt_coord 2 p
  have hpos : p 0 * p 0 + p 1 * p 1 + p 2 * p 2 ≠ 0 := by
    intro h; rw [h, Real.sqrt_zero] at hrho; exact lt_irrefl _ hrho
  have h := (((h0.mul h0).add (h1.mul h1)).add (h2.mul h2)).sqrt hpos
  refine h.congr_fderiv ?_
  ext v
  simp only [ContinuousLinearMap.add_apply, ContinuousLinearMap.smul_apply,
    ContinuousLinearMap.proj_apply, smul_eq_mul]
  field_simp
  ring

/-- The entries of d_proj_d_p3d, read off the definition of project. -/
theorem project_d_proj_d_p3d_eq (sq : ℝ → ℝ) (cam : UnifiedCamera ℝ) (q : Vec3 ℝ)
    (rho nrm : ℝ) (hrho : sq (q 0 * q 0 + q 1 * q 1 + q 2 * q 2) = rho)
    (hnrm : cam.param_ 4 * rho + (1 - cam.param_ 4) * q 2 = nrm) :
    (cam.project sq q).d_proj_d_p3d 0 0
      = cam.param_ 0 * (nrm * rho - q 0 * q 0 * cam.param_ 4) / (nrm * nrm * rho) ∧
    (cam.project sq q).d_proj_d_p3d 0 1
      = cam.param_ 0 * -(cam.param_ 4 * q 0 * q 1) / (nrm * nrm * rho) ∧
    (cam.project sq q).d_proj_d_p3d 0 2
      = -cam.param_ 0 * q 0 * (cam.param_ 4 * q 2 + (1 - cam.param_ 4) * rho)
          / (nrm * nrm * rho) ∧
    (cam.project sq q).d_proj_d_p3d 1 0
      = cam.param_ 1 * -(cam.param_ 4 * q 0 * q 1) / (nrm * nrm * rho) ∧
    (cam.project sq q).d_proj_d_p3d 1 1
      = cam.param_ 1 * (nrm * rho - q 1 * q 1 * cam.param_ 4) / (nrm * nrm * rho) ∧
    (cam.project sq q).d_proj_d_p3d 1 2
      = -cam.param_ 1 * q 1 * (cam.param_ 4 * q 2 + (1 - cam.param_ 4) * rho)
          / (nrm * nrm * rho) := by
  subst hrho hnrm
  exact ⟨rfl, rfl, rfl, rfl, rfl, rfl⟩

/-- The entries of d_proj_d_param, read off the definition of project. -/
theorem project_d_proj_d_param_eq (sq : ℝ → ℝ) (cam : UnifiedCamera ℝ) (q : Vec3 ℝ)
    (rho nrm : ℝ) (hrho : sq (q 0 * q 0 + q 1 * q 1 + q 2 * q 2) = rho)
    (hnrm : cam.param_ 4 * rho + (1 - cam.param_ 4) * q 2 = nrm) :
    ((cam.project sq q).d_proj_d_param 0 0 = q 0 / nrm ∧
     (cam.project sq q).d_proj_d_param 0 1 = 0 ∧
     (cam.project sq q).d_proj_d_param 0 2 = 1 ∧
     (cam.project sq q).d_proj_d_param 0 3 = 0 ∧
     (cam.project sq q).d_proj_d_param 0 4
       = -cam.param_ 0 * q 0 / (nrm * nrm) * (rho - q 2)) ∧
    ((cam.project sq q).d_proj_d_param 1 0 = 0 ∧
     (cam.project sq q).d_proj_d_param 1 1 = q 1 / nrm ∧
     (cam.project sq q).d_proj_d_param 1 2 = 0 ∧
     (cam.project sq q).d_proj_d_param 1 3 = 1 ∧
     (cam.project sq q).d_proj_d_param 1 4
       = -cam.param_ 1 * q 1 / (nrm * nrm) * (rho - q 2)) := by
  subst hrho hnrm
  exact ⟨⟨rfl, rfl, rfl, rfl, rfl⟩, ⟨rfl, rfl, rfl, rfl, rfl⟩⟩

/-- The matrix d_proj_d_p3d is the derivative of the projection in the 3D point. -/
theorem project_hasFDerivAt_p3d (cam : UnifiedCamera ℝ) (p : Vec3 ℝ)
    (hrho : 0 < Real.sqrt (p 0 * p 0 + p 1 * p 1 + p 2 * p 2))
    (hnorm : cam.param_ 4 * Real.sqrt (p 0 * p 0 + p 1 * p 1 + p 2 * p 2)
      + (1 - cam.param_ 4) * p 2 ≠ 0) :
    HasFDerivAt (fun q : Vec3 ℝ => (cam.project Real.sqrt q).proj)
      (LinearMap.toContinuousLinearMap
        (Matrix.mulVecLin (cam.project Real.sqrt p).d_proj_d_p3d)) p := by
  have h0 := hasFDerivAt_coord 0 p
  have h1 := hasFDerivAt_coord 1 p
  have h2 := hasFDerivAt_coord 2 p
  have hr := hasFDerivAt_rho p hrho
  have hN := (hr.const_mul (cam.param_ 4)).add (h2.const_mul (1 - cam.param_ 4))
  have hr0 := hrho.ne.symm
  obtain ⟨e00, e01, e02, e10, e11, e12⟩ := project_d_proj_d_p3d_eq Real.sqrt cam p _ _ rfl rfl
  rw [hasFDerivAt_pi']
  intro i
  fin_cases i
  · have h := ((hasFDerivAt_div_real _ _ _ _ p h0 hN hnorm).const_mul (cam.param_ 0)).add_const
      (cam.param_ 2)
    refine (h.congr_fderiv ?_)
    ext v
    rw [mulVecLin_row_three]
    simp only [Fin.zero_eta, e00, e01, e02]
    simp only [ContinuousLinearMap.add_apply, ContinuousLinearMap.smul_apply,
      ContinuousLinearMap.sub_apply, ContinuousLinearMap.proj_apply, smul_eq_mul]
    field_simp
    ring
  · have h := ((hasFDerivAt_div_real _ _ _ _ p h1 hN hnorm).const_mul (cam.param_ 1)).add_const
      (cam.param_ 3)
    refine (h.congr_fderiv ?_)
    ext v
    rw [mulVecLin_row_three]
    simp only [Fin.mk_one, e10, e11, e12]
    simp only [ContinuousLinearMap.add_apply, ContinuousLinearMap.smul_apply,
      ContinuousLinearMap.sub_apply, ContinuousLinearMap.proj_apply, smul_eq_mul]
    field_simp
    ring

/-- The matrix d_proj_d_param is the derivative of the projection in the intrinsics. -/
theorem project_hasFDerivAt_param (cam : UnifiedCamera ℝ) (p : Vec3 ℝ)
    (hnorm : cam.param_ 4 * Real.sqrt (p 0 * p 0 + p 1 * p 1 + p 2 * p 2)
      + (1 - cam.param_ 4) * p 2 ≠ 0) :
    HasFDerivAt (fun prm : VecN ℝ => (project Real.sqrt ⟨prm⟩ p).proj)
      (LinearMap.toContinuousLinearMap
        (Matrix.mulVecLin (cam.project Real.sqrt p).d_proj_d_param)) cam.param_ := by
  have h0 := hasFDerivAt_coord 0 cam.param_
  have h1 := hasFDerivAt_coord 1 cam.param_
  have h2 := hasFDerivAt_coord 2 cam.param_
  have h3 := hasFDerivAt_coord 3 cam.param_
  have h4 := hasFDerivAt_coord 4 cam.param_
  have hN := (h4.mul_const (Real.sqrt (p 0 * p 0 + p 1 * p 1 + p 2 * p 2))).add
    ((h4.const_sub 1).mul_const (p 2))
  obtain ⟨⟨e00, e01, e02, e03, e04⟩, ⟨e10, e11, e12, e13, e14⟩⟩ :=
    project_d_proj_d_param_eq Real.sqrt cam p _ _ rfl rfl
  rw [hasFDerivAt_pi']
  intro i
  fin_cases i
  · have h := (h0.mul (hasFDerivAt_div_real _ _ _ _ cam.param_
      (hasFDerivAt_const (p 0) cam.param_) hN hnorm)).add h2
    refine (h.congr_fderiv ?_)
    ext v
    rw [mulVecLin_row_five]
    simp only [Fin.zero_eta, e00, e01, e02, e03, e04]
    simp only [ContinuousLinearMap.add_apply, ContinuousLinearMap.smul_apply,
      ContinuousLinearMap.sub_apply, ContinuousLinearMap.proj_apply, smul_eq_mul,
      ContinuousLinearMap.neg_apply, ContinuousLinearMap.zero_apply]
    field_simp
    ring
  · have h := (h1.mul (hasFDerivAt_div_real _ _ _ _ cam.param_
      (hasFDerivAt_const (p 1) cam.param_) hN hnorm)).add h3
    refine (h.congr_fderiv ?_)
    ext v
    rw [mulVecLin_row_five]
    simp only [Fin.mk_one, e10, e11, e12, e13, e14]
    simp only [ContinuousLinearMap.add_apply, ContinuousLinearMap.smul_apply,
      ContinuousLinearMap.sub_apply, ContinuousLinearMap.proj_apply, smul_eq_mul,
      ContinuousLinearMap.neg_apply, ContinuousLinearMap.zero_apply]
    field_simp
    ring

/-- C5: at a 3D point with rho > 0 and norm ≠ 0 the projection is differentiable, the
2x3 matrix d_proj_d_p3d is its derivative, and entry (i, j) is the derivative of output i
along input coordinate j. -/
theorem project_d_proj_d_p3d_is_derivative (cam : UnifiedCamera ℝ) (p : Vec3 ℝ)
    (hrho : 0 < Real.sqrt (p 0 * p 0 + p 1 * p 1 + p 2 * p 2))
    (hnorm : cam.param_ 4 * Real.sqrt (p 0 * p 0 + p 1 * p 1 + p 2 * p 2)
      + (1 - cam.param_ 4) * p 2 ≠ 0) :
    DifferentiableAt ℝ (fun q : Vec3 ℝ => (cam.project Real.sqrt q).proj) p ∧
    HasFDerivAt (fun q : Vec3 ℝ => (cam.project Real.sqrt q).proj)
      (LinearMap.toContinuousLinearMap
        (Matrix.mulVecLin (cam.project Real.sqrt p).d_proj_d_p3d)) p ∧
    ∀ (i : Fin 2) (j : Fin 3),
      HasDerivAt (fun t => (cam.project Real.sqrt (Function.update p j t)).proj i)
        ((cam.project Real.sqrt p).d_proj_d_p3d i j) (p j) :=
  have h := project_hasFDerivAt_p3d cam p hrho hnorm
  ⟨h.differentiableAt, h, fun i j => hasDerivAt_of_hasFDerivAt_matrix _ _ p h i j⟩

/-- C5 at the camera [2, 3, 10, 20, 1/2] and the point (0, 0, 1), where rho = norm = 1:
the derivative of u along x is the entry (0, 0). -/
theorem project_d_proj_d_p3d_is_derivative_witness :
    HasDerivAt
      (fun t => (project Real.sqrt ⟨![2, 3, 10, 20, 1 / 2]⟩
        (Function.update ![0, 0, 1] 0 t)).proj 0)
      ((project Real.sqrt ⟨![2, 3, 10, 20, 1 / 2]⟩ ![0, 0, 1]).d_proj_d_p3d 0 0)
      ((![0, 0, 1] : Vec3 ℝ) 0) :=
  (project_d_proj_d_p3d_is_derivative ⟨![2, 3, 10, 20, 1 / 2]⟩ ![0, 0, 1]
    (by simp) (by simp)).2.2 0 0

/-- C6: at a 3D point with norm ≠ 0 the 2x5 matrix d_proj_d_param is the derivative of the
projected point in the intrinsics, entry (i, j) is the derivative of output i along
parameter j in the order fx, fy, cx, cy, alpha, and the columns fx, cx and alpha are
(x/norm, 0), (1, 0) and (-fx*x*(rho - z)/norm^2, -fy*y*(rho - z)/norm^2). -/
theorem project_d_proj_d_param_is_derivative (cam : UnifiedCamera ℝ) (p : Vec3 ℝ)
    (hnorm : cam.param_ 4 * Real.sqrt (p 0 * p 0 + p 1 * p 1 + p 2 * p 2)
      + (1 - cam.param_ 4) * p 2 ≠ 0) :
    HasFDerivAt (fun prm : VecN ℝ => (project Real.sqrt ⟨prm⟩ p).proj)
      (LinearMap.toContinuousLinearMap
        (Matrix.mulVecLin (cam.project Real.sqrt p).d_proj_d_param)) cam.param_ ∧
    (∀ (i : Fin 2) (j : Fin 5),
      HasDerivAt (fun t => (project Real.sqrt ⟨Function.update cam.param_ j t⟩ p).proj i)
        ((cam.project Real.sqrt p).d_proj_d_param i j) (cam.param_ j)) ∧
    (cam.project Real.sqrt p).d_proj_d_param 0 0
      = p 0 / (cam.param_ 4 * Real.sqrt (p 0 * p 0 + p 1 * p 1 + p 2 * p 2)
          + (1 - cam.param_ 4) * p 2) ∧
    (cam.project Real.sqrt p).d_proj_d_param 1 0 = 0 ∧
    (cam.project Real.sqrt p).d_proj_d_param 0 2 = 1 ∧
    (cam.project Real.sqrt p).d_proj_d_param 1 2 = 0 ∧
    (cam.project Real.sqrt p).d_proj_d_param 0 4
      = -cam.param_ 0 * p 0 * (Real.sqrt (p 0 * p 0 + p 1 * p 1 + p 2 * p 2) - p 2)
        / (cam.param_ 4 * Real.sqrt (p 0 * p 0 + p 1 * p 1 + p 2 * p 2)
          + (1 - cam.param_ 4) * p 2) ^ 2 ∧
    (cam.project Real.sqrt p).d_proj_d_param 1 4
      = -cam.param_ 1 * p 1 * (Real.sqrt (p 0 * p 0 + p 1 * p 1 + p 2 * p 2) - p 2)
        / (cam.param_ 4 * Real.sqrt (p 0 * p 0 + p 1 * p 1 + p 2 * p 2)
          + (1 - cam.param_ 4) * p 2) ^ 2 := by
  have h := project_hasFDerivAt_param cam p hnorm
  obtain ⟨⟨e00, -, e02, -, e04⟩, ⟨e10, -, e12, -, e14⟩⟩ :=
    project_d_proj_d_param_eq Real.sqrt cam p _ _ rfl rfl
  refine ⟨h, fun i j => hasDerivAt_of_hasFDerivAt_matrix _ _ cam.param_ h i j,
    e00, e10, e02, e12, ?_, ?_⟩
  · rw [e04, div_mul_eq_mul_div, pow_two]
  · rw [e14, div_mul_eq_mul_div, pow_two]

/-- C6 at the camera [2, 3, 10, 20, 1/2] and the point (0, 0, 1), where norm = 1:
the derivative of u along fx is the entry (0, 0). -/
theorem project_d_proj_d_param_is_derivative_witness :
    HasDerivAt
      (fun t => (project Real.sqrt
        ⟨Function.update (![2, 3, 10, 20, 1 / 2] : VecN ℝ) 0 t⟩ ![0, 0, 1]).proj 0)
      ((project Real.sqrt ⟨![2, 3, 10, 20, 1 / 2]⟩ ![0, 0, 1]).d_proj_d_param 0 0)
      ((![2, 3, 10, 20, 1 / 2] : VecN ℝ) 0) :=
  (project_d_proj_d_param_is_derivative ⟨![2, 3, 10, 20, 1 / 2]⟩ ![0, 0, 1]
    (by simp)).2.1 0 0

/-! C7, C8: the Jacobians of unproject -/

/-- The factor k of unproject as a function of xi, mx and my. -/
theorem hasFDerivAt_unproject_k {E : Type} [NormedAddCommGroup E] [NormedSpace ℝ E]
    (xif mxf myf : E → ℝ) (xi' mx' my' : E →L[ℝ] ℝ) (x : E)
    (hxi : HasFDerivAt xif xi' x) (hmx : HasFDerivAt mxf mx' x) (hmy : HasFDerivAt myf my' x)
    (xi a b n m : ℝ) (exi : xif x = xi) (ea : mxf x = a) (eb : myf x = b)
    (hn : Real.sqrt (1 + (1 - xi * xi) * (a * a + b * b)) = n) (hn0 : n ≠ 0)
    (hm : 1 + (a * a + b * b) = m) :
    HasFDerivAt
      (fun y => (xif y + Real.sqrt (1 + (1 - xif y * xif y) * (mxf y * mxf y + myf y * myf y)))
        / (1 + (mxf y * mxf y + myf y * myf y)))
      (((1 - xi * (a * a + b * b) / n) / m) • xi' +
       (-2 * a * (n + xi) / (m * m) + a * (1 - xi * xi) / (n * m)) • mx' +
       (-2 * b * (n + xi) / (m * m) + b * (1 - xi * xi) / (n * m)) • my') x := by
  have hr2 := (hmx.mul hmx).add (hmy.mul hmy)
  have hrad := (((hxi.mul hxi).const_sub 1).mul hr2).const_add 1
  have hrad0 : 1 + (1 - xif x * xif x) * (mxf x * mxf x + myf x * myf x) ≠ 0 := by
    rw [exi, ea, eb]
    intro h0
    rw [h0, Real.sqrt_zero] at hn
    exact hn0 hn.symm
  have hsq := hrad.sqrt hrad0
  have hmm := hr2.const_add 1
  have hm0 : m ≠ 0 := by
    rw [← hm]
    have := mul_self_nonneg a
    have := mul_self_nonneg b
    linarith
  have hm0' : (1 : ℝ) + (mxf x * mxf x + myf x * myf x) ≠ 0 := by
    rw [ea, eb, hm]; exact hm0
  have hk := hasFDerivAt_div_real _ _ _ _ x (hxi.add hsq) hmm hm0'
  refine hk.congr_fderiv ?_
  ext v
  simp only [ContinuousLinearMap.add_apply, ContinuousLinearMap.smul_apply,
    ContinuousLinearMap.sub_apply, ContinuousLinearMap.neg_apply, smul_eq_mul,
    exi, ea, eb, hn, hm]
  generalize xi' v = X
  generalize mx' v = A
  generalize my' v = B
  rw [← hm] at hm0 ⊢
  field_simp
  ring

/-- The entries of d_p3d_d_proj in terms of the locals of unproject. -/
theorem unproject_d_p3d_d_proj_eq (sq : ℝ → ℝ) (cam : UnifiedCamera ℝ) (uv : Vec2 ℝ)
    (xi mx my n m k dkx dky : ℝ)
    (hxi : cam.param_ 4 / (1 - cam.param_ 4) = xi)
    (hmx : (1 - cam.param_ 4) * ((uv 0 - cam.param_ 2) / cam.param_ 0) = mx)
    (hmy : (1 - cam.param_ 4) * ((uv 1 - cam.param_ 3) / cam.param_ 1) = my)
    (hn : sq (1 + (1 - xi * xi) * (mx * mx + my * my)) = n)
    (hm : 1 + (mx * mx + my * my) = m)
    (hk : (xi + n) / m = k)
    (hdkx : -2 * mx * (n + xi) / (m * m) + mx * (1 - xi * xi) / (n * m) = dkx)
    (hdky : -2 * my * (n + xi) / (m * m) + my * (1 - xi * xi) / (n * m) = dky) :
    ((cam.unproject sq uv).d_p3d_d_proj 0 0 = (dkx * mx + k) / cam.param_ 0 * (1 - cam.param_ 4) ∧
     (cam.unproject sq uv).d_p3d_d_proj 0 1 = dky * mx / cam.param_ 1 * (1 - cam.param_ 4)) ∧
    ((cam.unproject sq uv).d_p3d_d_proj 1 0 = dkx * my / cam.param_ 0 * (1 - cam.param_ 4) ∧
     (cam.unproject sq uv).d_p3d_d_proj 1 1 = (dky * my + k) / cam.param_ 1 * (1 - cam.param_ 4)) ∧
    ((cam.unproject sq uv).d_p3d_d_proj 2 0 = dkx / cam.param_ 0 * (1 - cam.param_ 4) ∧
     (cam.unproject sq uv).d_p3d_d_proj 2 1 = dky / cam.param_ 1 * (1 - cam.param_ 4)) := by
  subst hxi hmx hmy hn hm hk hdkx hdky
  exact ⟨⟨rfl, rfl⟩, ⟨rfl, rfl⟩, ⟨rfl, rfl⟩⟩

/-- The entries of d_p3d_d_param in terms of the locals of unproject. -/
theorem unproject_d_p3d_d_param_eq (sq : ℝ → ℝ) (cam : UnifiedCamera ℝ) (uv : Vec2 ℝ)
    (fx fy cx cy al n m k dkx dky dka : ℝ)
    (hfx : cam.param_ 0 = fx) (hfy : cam.param_ 1 = fy) (hcx : cam.param_ 2 = cx)
    (hcy : cam.param_ 3 = cy) (hal : cam.param_ 4 = al)
    (hn : sq (1 + (1 - al / (1 - al) * (al / (1 - al))) *
      ((1 - al) * ((uv 0 - cx) / fx) * ((1 - al) * ((uv 0 - cx) / fx)) +
       (1 - al) * ((uv 1 - cy) / fy) * ((1 - al) * ((uv 1 - cy) / fy)))) = n)
    (hm : 1 + ((1 - al) * ((uv 0 - cx) / fx) * ((1 - al) * ((uv 0 - cx) / fx)) +
       (1 - al) * ((uv 1 - cy) / fy) * ((1 - al) * ((uv 1 - cy) / fy))) = m)
    (hk : (al / (1 - al) + n) / m = k)
    (hdkx : -2 * ((1 - al) * ((uv 0 - cx) / fx)) * (n + al / (1 - al)) / (m * m)
      + (1 - al) * ((uv 0 - cx) / fx) * (1 - al / (1 - al) * (al / (1 - al))) / (n * m) = dkx)
    (hdky : -2 * ((1 - al) * ((uv 1 - cy) / fy)) * (n + al / (1 - al)) / (m * m)
      + (1 - al) * ((uv 1 - cy) / fy) * (1 - al / (1 - al) * (al / (1 - al))) / (n * m) = dky)
    (hdka : ((1 / ((1 - al) * (1 - al)) +
        -((uv 0 - cx) / fx * ((uv 0 - cx) / fx) + (uv 1 - cy) / fy * ((uv 1 - cy) / fy)) / n) * m
        - -2 * (1 - al) *
          ((uv 0 - cx) / fx * ((uv 0 - cx) / fx) + (uv 1 - cy) / fy * ((uv 1 - cy) / fy))
          * (al / (1 - al) + n)) / (m * m) = dka) :
    let J := (unproject sq cam uv).d_p3d_d_param
    (J 0 0 = -((uv 0 - cx) / fx) * ((dkx * ((1 - al) * ((uv 0 - cx) / fx)) + k) / fx * (1 - al)) ∧
     J 0 1 = -((uv 1 - cy) / fy) * (dky * ((1 - al) * ((uv 0 - cx) / fx)) / fy * (1 - al)) ∧
     J 0 2 = -((dkx * ((1 - al) * ((uv 0 - cx) / fx)) + k) / fx * (1 - al)) ∧
     J 0 3 = -(dky * ((1 - al) * ((uv 0 - cx) / fx)) / fy * (1 - al)) ∧
     J 0 4 = dka * ((1 - al) * ((uv 0 - cx) / fx)) - k * ((uv 0 - cx) / fx)) ∧
    (J 1 0 = -((uv 0 - cx) / fx) * (dkx * ((1 - al) * ((uv 1 - cy) / fy)) / fx * (1 - al)) ∧
     J 1 1 = -((uv 1 - cy) / fy) * ((dky * ((1 - al) * ((uv 1 - cy) / fy)) + k) / fy * (1 - al)) ∧
     J 1 2 = -(dkx * ((1 - al) * ((uv 1 - cy) / fy)) / fx * (1 - al)) ∧
     J 1 3 = -((dky * ((1 - al) * ((uv 1 - cy) / fy)) + k) / fy * (1 - al)) ∧
     J 1 4 = dka * ((1 - al) * ((uv 1 - cy) / fy)) - k * ((uv 1 - cy) / fy)) ∧
    (J 2 0 = -((uv 0 - cx) / fx) * (dkx / fx * (1 - al)) ∧
     J 2 1 = -((uv 1 - cy) / fy) * (dky / fy * (1 - al)) ∧
     J 2 2 = -(dkx / fx * (1 - al)) ∧
     J 2 3 = -(dky / fy * (1 - al)) ∧
     J 2 4 = dka - 1 / ((1 - al) * (1 - al))) := by
  subst hdka hdkx hdky hk hm hn hfx hfy hcx hcy hal
  exact ⟨⟨rfl, rfl, rfl, rfl, rfl⟩, ⟨rfl, rfl, rfl, rfl, rfl⟩, ⟨rfl, rfl, rfl, rfl, rfl⟩⟩

/-- The matrix d_p3d_d_proj is the derivative of the unprojection in the 2D point. -/
theorem unproject_hasFDerivAt_proj (cam : UnifiedCamera ℝ) (uv : Vec2 ℝ)
    (hfx : cam.param_ 0 ≠ 0) (hfy : cam.param_ 1 ≠ 0) (_ha : cam.param_ 4 ≠ 1)
    (hrad : 0 < unproject_radicand cam uv) :
    HasFDerivAt (fun q : Vec2 ℝ => (cam.unproject Real.sqrt q).p3d)
      (LinearMap.toContinuousLinearMap
        (Matrix.mulVecLin (cam.unproject Real.sqrt uv).d_p3d_d_proj)) uv := by
  have hu := hasFDerivAt_coord 0 uv
  have hv := hasFDerivAt_coord 1 uv
  have hmx := (hasFDerivAt_div_real _ _ _ _ uv (hu.sub_const (cam.param_ 2))
    (hasFDerivAt_const (cam.param_ 0) uv) hfx).const_mul (1 - cam.param_ 4)
  have hmy := (hasFDerivAt_div_real _ _ _ _ uv (hv.sub_const (cam.param_ 3))
    (hasFDerivAt_const (cam.param_ 1) uv) hfy).const_mul (1 - cam.param_ 4)
  have hxi : HasFDerivAt (fun _ : Vec2 ℝ => cam.param_ 4 / (1 - cam.param_ 4))
      (0 : Vec2 ℝ →L[ℝ] ℝ) uv := hasFDerivAt_const _ _
  simp only [unproject_radicand, unproject_r2] at hrad
  obtain ⟨xi, exi⟩ : ∃ xi, cam.param_ 4 / (1 - cam.param_ 4) = xi := ⟨_, rfl⟩
  obtain ⟨a, ea⟩ : ∃ a, (1 - cam.param_ 4) * ((uv 0 - cam.param_ 2) / cam.param_ 0) = a :=
    ⟨_, rfl⟩
  obtain ⟨b, eb⟩ : ∃ b, (1 - cam.param_ 4) * ((uv 1 - cam.param_ 3) / cam.param_ 1) = b :=
    ⟨_, rfl⟩
  rw [exi, ea, eb] at hrad
  obtain ⟨n, en⟩ : ∃ n, Real.sqrt (1 + (1 - xi * xi) * (a * a + b * b)) = n := ⟨_, rfl⟩
  have hn0 : n ≠ 0 := by rw [← en]; exact (Real.sqrt_pos.mpr hrad).ne.symm
  obtain ⟨m, em⟩ : ∃ m, 1 + (a * a + b * b) = m := ⟨_, rfl⟩
  obtain ⟨k, ek⟩ : ∃ k, (xi + n) / m = k := ⟨_, rfl⟩
  obtain ⟨dkx, edkx⟩ : ∃ d, -2 * a * (n + xi) / (m * m) + a * (1 - xi * xi) / (n * m) = d :=
    ⟨_, rfl⟩
  obtain ⟨dky, edky⟩ : ∃ d, -2 * b * (n + xi) / (m * m) + b * (1 - xi * xi) / (n * m) = d :=
    ⟨_, rfl⟩
  have hk := hasFDerivAt_unproject_k _ _ _ _ _ _ uv hxi hmx hmy xi a b n m exi ea eb en hn0 em
  obtain ⟨⟨e00, e01⟩, ⟨e10, e11⟩, ⟨e20, e21⟩⟩ :=
    unproject_d_p3d_d_proj_eq Real.sqrt cam uv xi a b n m k dkx dky exi ea eb en em ek edkx edky
  rw [hasFDerivAt_pi']
  intro i
  fin_cases i
  · have h := hk.mul hmx
    refine (h.congr_fderiv ?_)
    ext w
    rw [mulVecLin_row_two]
    simp only [Fin.zero_eta, e00, e01]
    simp only [ContinuousLinearMap.add_apply, ContinuousLinearMap.smul_apply,
      ContinuousLinearMap.sub_apply, ContinuousLinearMap.proj_apply, smul_eq_mul,
      ContinuousLinearMap.neg_apply, ContinuousLinearMap.zero_apply,
      exi, ea, eb, en, em, ek, edkx, edky]
    field_simp
    ring
  · have h := hk.mul hmy
    refine (h.congr_fderiv ?_)
    ext w
    rw [mulVecLin_row_two]
    simp only [Fin.mk_one, e10, e11]
    simp only [ContinuousLinearMap.add_apply, ContinuousLinearMap.smul_apply,
      ContinuousLinearMap.sub_apply, ContinuousLinearMap.proj_apply, smul_eq_mul,
      ContinuousLinearMap.neg_apply, ContinuousLinearMap.zero_apply,
      exi, ea, eb, en, em, ek, edkx, edky]
    field_simp
    ring
  · have h := hk.sub_const (cam.param_ 4 / (1 - cam.param_ 4))
    refine (h.congr_fderiv ?_)
    ext w
    rw [mulVecLin_row_two]
    have e20' : (cam.unproject Real.sqrt uv).d_p3d_d_proj ⟨2, by decide⟩ 0 = _ := e20
    have e21' : (cam.unproject Real.sqrt uv).d_p3d_d_proj ⟨2, by decide⟩ 1 = _ := e21
    simp only [e20', e21']
    simp only [ContinuousLinearMap.add_apply, ContinuousLinearMap.smul_apply,
      ContinuousLinearMap.sub_apply, ContinuousLinearMap.proj_apply, smul_eq_mul,
      ContinuousLinearMap.neg_apply, ContinuousLinearMap.zero_apply,
      exi, ea, eb, en, em, ek, edkx, edky]
    field_simp
    ring

/-- The chain rule behind dk_d_alpha, with n, m as plain numbers. -/
theorem dk_d_alpha_core (al X Y n m dxik dkx dky dka : ℝ)
    (h1a : 1 - al ≠ 0) (hn0 : n ≠ 0) (hm0 : m ≠ 0)
    (edxik : (1 - al / (1 - al) * ((1 - al) * X * ((1 - al) * X) + (1 - al) * Y * ((1 - al) * Y))
      / n) / m = dxik)
    (edkx : -2 * ((1 - al) * X) * (n + al / (1 - al)) / (m * m)
      + (1 - al) * X * (1 - al / (1 - al) * (al / (1 - al))) / (n * m) = dkx)
    (edky : -2 * ((1 - al) * Y) * (n + al / (1 - al)) / (m * m)
      + (1 - al) * Y * (1 - al / (1 - al) * (al / (1 - al))) / (n * m) = dky)
    (edka : ((1 / ((1 - al) * (1 - al)) + -(X * X + Y * Y) / n) * m
        - -2 * (1 - al) * (X * X + Y * Y) * (al / (1 - al) + n)) / (m * m) = dka) :
    dka = dxik * (1 / ((1 - al) * (1 - al))) - dkx * X - dky * Y := by
  subst edxik edkx edky edka
  field_simp
  ring

set_option maxHeartbeats 1600000 in
/-- The matrix d_p3d_d_param is the derivative of the unprojection in the intrinsics. -/
theorem unproject_hasFDerivAt_param (cam : UnifiedCamera ℝ) (uv : Vec2 ℝ)
    (hfx : cam.param_ 0 ≠ 0) (hfy : cam.param_ 1 ≠ 0) (ha : cam.param_ 4 ≠ 1)
    (hrad : 0 < unproject_radicand cam uv) :
    HasFDerivAt (fun prm : VecN ℝ => (unproject Real.sqrt ⟨prm⟩ uv).p3d)
      (LinearMap.toContinuousLinearMap
        (Matrix.mulVecLin (cam.unproject Real.sqrt uv).d_p3d_d_param)) cam.param_ := by
  have h0 := hasFDerivAt_coord 0 cam.param_
  have h1 := hasFDerivAt_coord 1 cam.param_
  have h2 := hasFDerivAt_coord 2 cam.param_
  have h3 := hasFDerivAt_coord 3 cam.param_
  have h4 := hasFDerivAt_coord 4 cam.param_
  have h1a : (1 : ℝ) - cam.param_ 4 ≠ 0 := fun h => ha (by linarith)
  have hxi := hasFDerivAt_div_real _ _ _ _ cam.param_ h4 (h4.const_sub 1) h1a
  have hmx := (h4.const_sub 1).mul
    (hasFDerivAt_div_real _ _ _ _ cam.param_ (h2.const_sub (uv 0)) h0 hfx)
  have hmy := (h4.const_sub 1).mul
    (hasFDerivAt_div_real _ _ _ _ cam.param_ (h3.const_sub (uv 1)) h1 hfy)
  simp only [unproject_radicand, unproject_r2] at hrad
  obtain ⟨X, eX⟩ : ∃ X, (uv 0 - cam.param_ 2) / cam.param_ 0 = X := ⟨_, rfl⟩
  obtain ⟨Y, eY⟩ : ∃ Y, (uv 1 - cam.param_ 3) / cam.param_ 1 = Y := ⟨_, rfl⟩
  obtain ⟨n, en⟩ : ∃ n, Real.sqrt (1 +
      (1 - cam.param_ 4 / (1 - cam.param_ 4) * (cam.param_ 4 / (1 - cam.param_ 4))) *
      ((1 - cam.param_ 4) * X * ((1 - cam.param_ 4) * X) +
       (1 - cam.param_ 4) * Y * ((1 - cam.param_ 4) * Y))) = n := ⟨_, rfl⟩
  have hn0 : n ≠ 0 := by
    rw [← en]; rw [eX, eY] at hrad; exact (Real.sqrt_pos.mpr hrad).ne.symm
  obtain ⟨m, em⟩ : ∃ m, 1 + ((1 - cam.param_ 4) * X * ((1 - cam.param_ 4) * X) +
       (1 - cam.param_ 4) * Y * ((1 - cam.param_ 4) * Y)) = m := ⟨_, rfl⟩
  have hm0 : m ≠ 0 := by
    rw [← em]
    have := mul_self_nonneg ((1 - cam.param_ 4) * X)
    have := mul_self_nonneg ((1 - cam.param_ 4) * Y)
    linarith
  obtain ⟨k, ek⟩ : ∃ k, (cam.param_ 4 / (1 - cam.param_ 4) + n) / m = k := ⟨_, rfl⟩
  obtain ⟨dxik, edxik⟩ : ∃ d, (1 - cam.param_ 4 / (1 - cam.param_ 4) *
      ((1 - cam.param_ 4) * X * ((1 - cam.param_ 4) * X) +
       (1 - cam.param_ 4) * Y * ((1 - cam.param_ 4) * Y)) / n) / m = d := ⟨_, rfl⟩
  obtain ⟨dkx, edkx⟩ : ∃ d, -2 * ((1 - cam.param_ 4) * X) * (n + cam.param_ 4 / (1 - cam.param_ 4))
      / (m * m) + (1 - cam.param_ 4) * X *
        (1 - cam.param_ 4 / (1 - cam.param_ 4) * (cam.param_ 4 / (1 - cam.param_ 4))) / (n * m)
      = d := ⟨_, rfl⟩
  obtain ⟨dky, edky⟩ : ∃ d, -2 * ((1 - cam.param_ 4) * Y) * (n + cam.param_ 4 / (1 - cam.param_ 4))
      / (m * m) + (1 - cam.param_ 4) * Y *
        (1 - cam.param_ 4 / (1 - cam.param_ 4) * (cam.param_ 4 / (1 - cam.param_ 4))) / (n * m)
      = d := ⟨_, rfl⟩
  obtain ⟨dka, edka⟩ : ∃ d, ((1 / ((1 - cam.param_ 4) * (1 - cam.param_ 4))
      + -(X * X + Y * Y) / n) * m
        - -2 * (1 - cam.param_ 4) * (X * X + Y * Y) * (cam.param_ 4 / (1 - cam.param_ 4) + n))
        / (m * m) = d := ⟨_, rfl⟩
  have hkey := dk_d_alpha_core _ X Y n m dxik dkx dky dka h1a hn0 hm0 edxik edkx edky edka
  have hk := hasFDerivAt_unproject_k _ _ _ _ _ _ cam.param_ hxi hmx hmy _ _ _ n m rfl rfl rfl
    (by rw [eX, eY]; exact en) hn0 (by rw [eX, eY]; exact em)
  obtain ⟨⟨e00, e01, e02, e03, e04⟩, ⟨e10, e11, e12, e13, e14⟩, ⟨e20, e21, e22, e23, e24⟩⟩ :=
    unproject_d_p3d_d_param_eq Real.sqrt cam uv _ _ _ _ _ n m k dkx dky dka rfl rfl rfl rfl rfl
      (by rw [eX, eY]; exact en) (by rw [eX, eY]; exact em) ek
      (by rw [eX]; exact edkx) (by rw [eY]; exact edky) (by rw [eX, eY]; exact edka)
  simp only [eX, eY] at e00 e01 e02 e03 e04 e10 e11 e12 e13 e14 e20 e21 e22 e23 e24
  rw [hasFDerivAt_pi']
  intro i
  fin_cases i
  · have h := hk.mul hmx
    refine (h.congr_fderiv ?_)
    ext w
    rw [mulVecLin_row_five]
    simp only [Fin.zero_eta, e00, e01, e02, e03, e04]
    simp only [ContinuousLinearMap.add_apply, ContinuousLinearMap.smul_apply,
      ContinuousLinearMap.sub_apply, ContinuousLinearMap.proj_apply, smul_eq_mul,
      ContinuousLinearMap.neg_apply, ContinuousLinearMap.zero_apply, eX, eY, en, em, ek,
      edxik, edkx, edky, hkey]
    field_simp
    ring
  · have h := hk.mul hmy
    refine (h.congr_fderiv ?_)
    ext w
    rw [mulVecLin_row_five]
    simp only [Fin.mk_one, e10, e11, e12, e13, e14]
    simp only [ContinuousLinearMap.add_apply, ContinuousLinearMap.smul_apply,
      ContinuousLinearMap.sub_apply, ContinuousLinearMap.proj_apply, smul_eq_mul,
      ContinuousLinearMap.neg_apply, ContinuousLinearMap.zero_apply, eX, eY, en, em, ek,
      edxik, edkx, edky, hkey]
    field_simp
    ring
  · have h := hk.sub hxi
    refine (h.congr_fderiv ?_)
    ext w
    rw [mulVecLin_row_five]
    have e20' : (cam.unproject Real.sqrt uv).d_p3d_d_param ⟨2, by decide⟩ 0 = _ := e20
    have e21' : (cam.unproject Real.sqrt uv).d_p3d_d_param ⟨2, by decide⟩ 1 = _ := e21
    have e22' : (cam.unproject Real.sqrt uv).d_p3d_d_param ⟨2, by decide⟩ 2 = _ := e22
    have e23' : (cam.unproject Real.sqrt uv).d_p3d_d_param ⟨2, by decide⟩ 3 = _ := e23
    have e24' : (cam.unproject Real.sqrt uv).d_p3d_d_param ⟨2, by decide⟩ 4 = _ := e24
    simp only [e20', e21', e22', e23', e24']
    simp only [ContinuousLinearMap.add_apply, ContinuousLinearMap.smul_apply,
      ContinuousLinearMap.sub_apply, ContinuousLinearMap.proj_apply, smul_eq_mul,
      ContinuousLinearMap.neg_apply, ContinuousLinearMap.zero_apply, eX, eY, en, em, ek,
      edxik, edkx, edky, hkey]
    field_simp
    ring

/-- C7: for fx ≠ 0, fy ≠ 0, alpha ≠ 1 and a 2D point with strictly positive radicand the
unprojection is differentiable, the 3x2 matrix d_p3d_d_proj is its derivative, and its
columns 0 and 1 are the derivatives of the unprojected vector along u and along v. -/
theorem unproject_d_p3d_d_proj_is_derivative (cam : UnifiedCamera ℝ) (uv : Vec2 ℝ)
    (hfx : cam.param_ 0 ≠ 0) (hfy : cam.param_ 1 ≠ 0) (ha : cam.param_ 4 ≠ 1)
    (hrad : 0 < unproject_radicand cam uv) :
    DifferentiableAt ℝ (fun q : Vec2 ℝ => (cam.unproject Real.sqrt q).p3d) uv ∧
    HasFDerivAt (fun q : Vec2 ℝ => (cam.unproject Real.sqrt q).p3d)
      (LinearMap.toContinuousLinearMap
        (Matrix.mulVecLin (cam.unproject Real.sqrt uv).d_p3d_d_proj)) uv ∧
    ∀ (i : Fin 3) (j : Fin 2),
      HasDerivAt (fun t => (cam.unproject Real.sqrt (Function.update uv j t)).p3d i)
        ((cam.unproject Real.sqrt uv).d_p3d_d_proj i j) (uv j) :=
  have h := unproject_hasFDerivAt_proj cam uv hfx hfy ha hrad
  ⟨h.differentiableAt, h, fun i j => hasDerivAt_of_hasFDerivAt_matrix _ _ uv h i j⟩

/-- C7 at the camera [2, 3, 10, 20, 1/2] and the 2D point (11, 22), where the radicand
is 1: the derivative of the first unprojected coordinate along u is the entry (0, 0). -/
theorem unproject_d_p3d_d_proj_is_derivative_witness :
    0 < unproject_radicand (S := ℝ) ⟨![2, 3, 10, 20, 1 / 2]⟩ ![11, 22] ∧
    HasDerivAt
      (fun t => (unproject Real.sqrt ⟨![2, 3, 10, 20, 1 / 2]⟩
        (Function.update ![11, 22] 0 t)).p3d 0)
      ((unproject Real.sqrt ⟨![2, 3, 10, 20, 1 / 2]⟩ ![11, 22]).d_p3d_d_proj 0 0)
      ((![11, 22] : Vec2 ℝ) 0) :=
  have hrad : 0 < unproject_radicand (S := ℝ) ⟨![2, 3, 10, 20, 1 / 2]⟩ ![11, 22] := by
    simp [unproject_radicand, unproject_r2]; norm_num
  ⟨hrad, (unproject_d_p3d_d_proj_is_derivative ⟨![2, 3, 10, 20, 1 / 2]⟩ ![11, 22]
    (by simp) (by simp) (by simp) hrad).2.2 0 0⟩

/-- C8: for fx ≠ 0, fy ≠ 0, alpha ≠ 1 and a 2D point with strictly positive radicand the
3x5 matrix d_p3d_d_param is the derivative of the unprojected vector in the intrinsics,
column j is its derivative along parameter j in the order fx, fy, cx, cy, alpha, and
the columns fx, fy, cx, cy are -mxx * c0, -myy * c1, -c0, -c1 with c0, c1 the columns of
d_p3d_d_proj. -/
theorem unproject_d_p3d_d_param_is_derivative (cam : UnifiedCamera ℝ) (uv : Vec2 ℝ)
    (hfx : cam.param_ 0 ≠ 0) (hfy : cam.param_ 1 ≠ 0) (ha : cam.param_ 4 ≠ 1)
    (hrad : 0 < unproject_radicand cam uv) :
    HasFDerivAt (fun prm : VecN ℝ => (unproject Real.sqrt ⟨prm⟩ uv).p3d)
      (LinearMap.toContinuousLinearMap
        (Matrix.mulVecLin (cam.unproject Real.sqrt uv).d_p3d_d_param)) cam.param_ ∧
    (∀ (i : Fin 3) (j : Fin 5),
      HasDerivAt (fun t => (unproject Real.sqrt ⟨Function.update cam.param_ j t⟩ uv).p3d i)
        ((cam.unproject Real.sqrt uv).d_p3d_d_param i j) (cam.param_ j)) ∧
    (∀ i : Fin 3,
      (cam.unproject Real.sqrt uv).d_p3d_d_param i 0
        = -((uv 0 - cam.param_ 2) / cam.param_ 0) * (cam.unproject Real.sqrt uv).d_p3d_d_proj i 0 ∧
      (cam.unproject Real.sqrt uv).d_p3d_d_param i 1
        = -((uv 1 - cam.param_ 3) / cam.param_ 1) * (cam.unproject Real.sqrt uv).d_p3d_d_proj i 1 ∧
      (cam.unproject Real.sqrt uv).d_p3d_d_param i 2
        = -(cam.unproject Real.sqrt uv).d_p3d_d_proj i 0 ∧
      (cam.unproject Real.sqrt uv).d_p3d_d_param i 3
        = -(cam.unproject Real.sqrt uv).d_p3d_d_proj i 1) :=
  have h := unproject_hasFDerivAt_param cam uv hfx hfy ha hrad
  ⟨h, fun i j => hasDerivAt_of_hasFDerivAt_matrix _ _ cam.param_ h i j,
    fun _ => ⟨rfl, rfl, rfl, rfl⟩⟩

/-- C8 at the camera [2, 3, 10, 20, 1/2] and the 2D point (11, 22), where the radicand
is 1: the derivative of the third unprojected coordinate along alpha is the entry (2, 4). -/
theorem unproject_d_p3d_d_param_is_derivative_witness :
    0 < unproject_radicand (S := ℝ) ⟨![2, 3, 10, 20, 1 / 2]⟩ ![11, 22] ∧
    HasDerivAt
      (fun t => (unproject Real.sqrt
        ⟨Function.update (![2, 3, 10, 20, 1 / 2] : VecN ℝ) 4 t⟩ ![11, 22]).p3d 2)
      ((unproject Real.sqrt ⟨![2, 3, 10, 20, 1 / 2]⟩ ![11, 22]).d_p3d_d_param 2 4)
      ((![2, 3, 10, 20, 1 / 2] : VecN ℝ) 4) :=
  have hrad : 0 < unproject_radicand (S := ℝ) ⟨![2, 3, 10, 20, 1 / 2]⟩ ![11, 22] := by
    simp [unproject_radicand, unproject_r2]; norm_num
  ⟨hrad, (unproject_d_p3d_d_param_is_derivative ⟨![2, 3, 10, 20, 1 / 2]⟩ ![11, 22]
    (by simp) (by simp) (by simp) hrad).2.1 2 4⟩

/-! C9, C10: the increment -/

/-- C9: operator+= stores p[i] + inc[i] for the four parameters fx, fy, cx, cy and
min(max(p[4] + inc[4], 0), 1) for alpha, so the stored alpha lies in [0, 1]. -/
theorem operator_plus_eq_spec {S : Type} [LinearOrderedField S]
    (cam : UnifiedCamera S) (inc : VecN S) :
    (cam.operator_plus_eq inc).param_ 0 = cam.param_ 0 + inc 0 ∧
    (cam.operator_plus_eq inc).param_ 1 = cam.param_ 1 + inc 1 ∧
    (cam.operator_plus_eq inc).param_ 2 = cam.param_ 2 + inc 2 ∧
    (cam.operator_plus_eq inc).param_ 3 = cam.param_ 3 + inc 3 ∧
    (cam.operator_plus_eq inc).param_ 4 = min (max (cam.param_ 4 + inc 4) 0) 1 ∧
    0 ≤ (cam.operator_plus_eq inc).param_ 4 ∧ (cam.operator_plus_eq inc).param_ 4 ≤ 1 := by
  have h4 : (cam.operator_plus_eq inc).param_ 4 = clamp (cam.param_ 4 + inc 4) 0 1 := by
    simp [operator_plus_eq]
  have hne : ∀ i : Fin 5, i ≠ 4 →
      (cam.operator_plus_eq inc).param_ i = cam.param_ i + inc i := by
    intro i hi
    simp [operator_plus_eq, Function.update_noteq hi]
  refine ⟨hne 0 (by decide), hne 1 (by decide), hne 2 (by decide), hne 3 (by decide), ?_, ?_, ?_⟩
  · rw [h4, clamp_eq_min_max]
  · rw [h4]; exact (clamp_mem _).1
  · rw [h4]; exact (clamp_mem _).2

/-- The examples of C9: an increment taking alpha from 1/2 to 13/10 stores 1, and one
taking it to -1/5 stores 0. -/
theorem operator_plus_eq_examples :
    (operator_plus_eq (S := ℚ) ⟨![2, 3, 10, 20, 1 / 2]⟩ ![0, 0, 0, 0, 4 / 5]).param_ 4 = 1 ∧
    (operator_plus_eq (S := ℚ) ⟨![2, 3, 10, 20, 1 / 2]⟩ ![0, 0, 0, 0, -7 / 10]).param_ 4 = 0 := by
  constructor <;> (simp [operator_plus_eq, clamp]; norm_num)

/-- One zero increment clamps alpha and keeps the rest. -/
theorem operator_plus_eq_zero {S : Type} [LinearOrderedField S] (cam : UnifiedCamera S) :
    cam.operator_plus_eq (fun _ => 0)
      = ⟨Function.update cam.param_ 4 (clamp (cam.param_ 4) 0 1)⟩ := by
  simp only [operator_plus_eq, add_zero]

/-- After the first zero increment every further one changes nothing. -/
theorem zero_increments_succ {S : Type} [LinearOrderedField S] (cam : UnifiedCamera S)
    (n : Nat) :
    zero_increments (n + 1) cam
      = ⟨Function.update cam.param_ 4 (clamp (cam.param_ 4) 0 1)⟩ := by
  unfold zero_increments
  rw [Function.iterate_succ_apply, operator_plus_eq_zero]
  apply Function.iterate_fixed
  rw [operator_plus_eq_zero]
  simp only [Function.update_same, Function.update_idem]
  rw [clamp_of_mem _ (clamp_mem _).1 (clamp_mem _).2]

/-- C10 as stated fails: the camera constructed from the raw vector [1, 1, 0, 0, 3/2]
is changed by one zero increment (alpha becomes 1). -/
theorem zero_increment_changes_raw_alpha :
    (zero_increments 1 (ofVecN (S := ℚ) ![1, 1, 0, 0, 3 / 2])).getParam
      ≠ (ofVecN (S := ℚ) ![1, 1, 0, 0, 3 / 2]).getParam ∧
    (zero_increments 1 (ofVecN (S := ℚ) ![1, 1, 0, 0, 3 / 2])).getParam 4 = 1 := by
  rw [zero_increments_succ]
  constructor
  · intro h
    have h4 := congrFun h 4
    simp [ofVecN, getParam, clamp] at h4
    norm_num at h4
  · simp [ofVecN, getParam, clamp]; norm_num

/-- C10 amended: n ≥ 1 zero increments store alpha clamped into [0, 1] and leave
fx, fy, cx, cy as they were; the parameter vector is unchanged exactly when the
stored alpha was in [0, 1]. -/
theorem zero_increments_spec {S : Type} [LinearOrderedField S] (cam : UnifiedCamera S)
    (n : Nat) (hn : 1 ≤ n) :
    (zero_increments n cam).getParam
      = Function.update cam.getParam 4 (clamp (cam.getParam 4) 0 1) ∧
    ((zero_increments n cam).getParam = cam.getParam ↔
      (0 ≤ cam.getParam 4 ∧ cam.getParam 4 ≤ 1)) := by
  obtain ⟨k, rfl⟩ : ∃ k, n = k + 1 := ⟨n - 1, by omega⟩
  rw [zero_increments_succ]
  refine ⟨rfl, ?_⟩
  show Function.update cam.param_ 4 (clamp (cam.param_ 4) 0 1) = cam.param_ ↔
    (0 ≤ cam.param_ 4 ∧ cam.param_ 4 ≤ 1)
  constructor
  · intro h
    have h4 := congrFun h 4
    simp only [Function.update_same] at h4
    rw [← h4]
    exact clamp_mem _
  · rintro ⟨h0, h1⟩
    rw [clamp_of_mem _ h0 h1, Function.update_eq_self]

/-- C10 amended, at the camera [2, 3, 10, 20, 1/2] and three zero increments. -/
theorem zero_increments_spec_witness :
    1 ≤ 3 ∧
    ((zero_increments 3 (ofVecN (S := ℚ) ![2, 3, 10, 20, 1 / 2])).getParam
      = Function.update (ofVecN (S := ℚ) ![2, 3, 10, 20, 1 / 2]).getParam 4
          (clamp ((ofVecN (S := ℚ) ![2, 3, 10, 20, 1 / 2]).getParam 4) 0 1) ∧
    ((zero_increments 3 (ofVecN (S := ℚ) ![2, 3, 10, 20, 1 / 2])).getParam
        = (ofVecN (S := ℚ) ![2, 3, 10, 20, 1 / 2]).getParam ↔
      (0 ≤ (ofVecN (S := ℚ) ![2, 3, 10, 20, 1 / 2]).getParam 4 ∧
        (ofVecN (S := ℚ) ![2, 3, 10, 20, 1 / 2]).getParam 4 ≤ 1))) :=
  ⟨by decide, zero_increments_spec (ofVecN ![2, 3, 10, 20, 1 / 2]) 3 (by decide)⟩

/-! C11, C12, C13, C15: what project, unproject and setFromInit compute -/

/-- C11: project returns the 2D point (fx*x/norm + cx, fy*y/norm + cy) with
norm = alpha*rho + (1 - alpha)*z and rho = sqrt(x^2 + y^2 + z^2), and it returns true
exactly when z > -w*rho, where w = (1 - alpha)/alpha if alpha > 0.5 and
w = alpha/(1 - alpha) otherwise. -/
theorem project_spec {S : Type} [LinearOrderedField S] (sq : S → S)
    (cam : UnifiedCamera S) (p : Vec3 S) :
    (cam.project sq p).proj
      = ![cam.param_ 0 * p 0 /
            (cam.param_ 4 * sq (p 0 * p 0 + p 1 * p 1 + p 2 * p 2) + (1 - cam.param_ 4) * p 2)
            + cam.param_ 2,
          cam.param_ 1 * p 1 /
            (cam.param_ 4 * sq (p 0 * p 0 + p 1 * p 1 + p 2 * p 2) + (1 - cam.param_ 4) * p 2)
            + cam.param_ 3] ∧
    ((cam.project sq p).is_valid = true ↔
      p 2 > -(if cam.param_ 4 > 1 / 2 then (1 - cam.param_ 4) / cam.param_ 4
              else cam.param_ 4 / (1 - cam.param_ 4))
            * sq (p 0 * p 0 + p 1 * p 1 + p 2 * p 2)) := by
  constructor
  · simp only [project, mul_div_assoc]
  · simp only [project, decide_eq_true_eq]

/-- The r2 of unproject written with mx = (1 - alpha)(u - cx)/fx and
my = (1 - alpha)(v - cy)/fy. -/
theorem unproject_r2_eq {S : Type} [LinearOrderedField S] (cam : UnifiedCamera S)
    (uv : Vec2 S) :
    unproject_r2 cam uv
      = ((1 - cam.param_ 4) * (uv 0 - cam.param_ 2) / cam.param_ 0) ^ 2
        + ((1 - cam.param_ 4) * (uv 1 - cam.param_ 3) / cam.param_ 1) ^ 2 := by
  simp only [unproject_r2, pow_two, mul_div_assoc]

/-- C12: unproject returns false exactly when alpha > 0.5 and r2 ≥ 1/(2*alpha - 1), with
r2 = mx^2 + my^2, mx = (1 - alpha)(u - cx)/fx, my = (1 - alpha)(v - cy)/fy; for
alpha ≤ 0.5 every 2D point is reported valid. -/
theorem unproject_is_valid_spec {S : Type} [LinearOrderedField S] (sq : S → S)
    (cam : UnifiedCamera S) (uv : Vec2 S) :
    ((cam.unproject sq uv).is_valid = false ↔
      (cam.param_ 4 > 1 / 2 ∧
        ((1 - cam.param_ 4) * (uv 0 - cam.param_ 2) / cam.param_ 0) ^ 2
          + ((1 - cam.param_ 4) * (uv 1 - cam.param_ 3) / cam.param_ 1) ^ 2
          ≥ 1 / (2 * cam.param_ 4 - 1))) ∧
    (cam.param_ 4 ≤ 1 / 2 → (cam.unproject sq uv).is_valid = true) := by
  rw [unproject_is_valid_eq, ← unproject_r2_eq]
  constructor
  · simp
  · intro h
    have hn : ¬ (cam.param_ 4 > 1 / 2) := not_lt.mpr h
    simp only [hn, decide_False, Bool.false_and, Bool.not_false]

/-- C13: after setFromInit(init) the stored parameter vector is
[init[0], init[1], init[2], init[3], 0.5], whatever it was before. -/
theorem setFromInit_spec {S : Type} [LinearOrderedField S] (cam : UnifiedCamera S)
    (init : Vec4 S) :
    (cam.setFromInit init).getParam = ![init 0, init 1, init 2, init 3, 1 / 2] := rfl

/-- C15: with alpha = 0 project returns (fx*x/z + cx, fy*y/z + cy) and reports valid
exactly when z > 0. -/
theorem project_alpha_zero {S : Type} [LinearOrderedField S] (sq : S → S)
    (cam : UnifiedCamera S) (p : Vec3 S) (ha : cam.param_ 4 = 0) :
    (cam.project sq p).proj
      = ![cam.param_ 0 * p 0 / p 2 + cam.param_ 2, cam.param_ 1 * p 1 / p 2 + cam.param_ 3] ∧
    ((cam.project sq p).is_valid = true ↔ p 2 > 0) := by
  constructor
  · simp only [project, ha, mul_div_assoc, zero_mul, sub_zero, one_mul, zero_add]
  · simp [project, ha]

/-- C15 at the camera [2, 3, 10, 20, 0] and the point (1, 2, 4). -/
theorem project_alpha_zero_witness :
    (project Real.sqrt ⟨![2, 3, 10, 20, 0]⟩ ![1, 2, 4]).proj
      = ![(![2, 3, 10, 20, 0] : VecN ℝ) 0 * (![1, 2, 4] : Vec3 ℝ) 0 / (![1, 2, 4] : Vec3 ℝ) 2
            + (![2, 3, 10, 20, 0] : VecN ℝ) 2,
          (![2, 3, 10, 20, 0] : VecN ℝ) 1 * (![1, 2, 4] : Vec3 ℝ) 1 / (![1, 2, 4] : Vec3 ℝ) 2
            + (![2, 3, 10, 20, 0] : VecN ℝ) 3] ∧
    ((project Real.sqrt ⟨![2, 3, 10, 20, 0]⟩ ![1, 2, 4]).is_valid = true ↔
      (![1, 2, 4] : Vec3 ℝ) 2 > 0) :=
  project_alpha_zero Real.sqrt ⟨![2, 3, 10, 20, 0]⟩ ![1, 2, 4] (by simp)

/-! C14, C16: the validity domain of project -/

/-- The weight w of the validity test of project lies in [0, 1] when alpha does. -/
theorem project_w_mem (α : ℝ) (ha0 : 0 ≤ α) (ha1 : α ≤ 1) :
    0 ≤ (if α > 1 / 2 then (1 - α) / α else α / (1 - α)) ∧
    (if α > 1 / 2 then (1 - α) / α else α / (1 - α)) ≤ 1 := by
  split_ifs with h
  · have hα : 0 < α := by linarith
    exact ⟨div_nonneg (by linarith) hα.le, (div_le_one hα).mpr (by linarith)⟩
  · push_neg at h
    have hα : 0 < 1 - α := by linarith
    exact ⟨div_nonneg ha0 hα.le, (div_le_one hα).mpr (by linarith)⟩

/-- The length of (x, y, z) grows by at most the increase of z. -/
theorem rho_le_add (x y z z' : ℝ) (hz : z ≤ z') :
    Real.sqrt (x * x + y * y + z * z)
      ≤ Real.sqrt (x * x + y * y + z' * z') + (z' - z) := by
  have hs' : 0 ≤ x * x + y * y + z' * z' := by
    nlinarith [mul_self_nonneg x, mul_self_nonneg y, mul_self_nonneg z']
  have hr' := Real.sqrt_nonneg (x * x + y * y + z' * z')
  have hr'2 := Real.mul_self_sqrt hs'
  have hzr : -z' ≤ Real.sqrt (x * x + y * y + z' * z') := by
    by_contra hc
    push_neg at hc
    nlinarith [mul_self_nonneg x, mul_self_nonneg y]
  rw [Real.sqrt_le_left (by linarith)]
  nlinarith [mul_nonneg (sub_nonneg.mpr hz) (by linarith : 0 ≤ Real.sqrt (x * x + y * y + z' * z') + z')]

/-- The validity test of project is monotone in z when 0 ≤ w ≤ 1. -/
theorem project_valid_mono_core (w x y z z' : ℝ) (hw0 : 0 ≤ w) (hw1 : w ≤ 1) (hz : z < z')
    (hv : z > -w * Real.sqrt (x * x + y * y + z * z)) :
    z' > -w * Real.sqrt (x * x + y * y + z' * z') := by
  have h1 := rho_le_add x y z z' hz.le
  nlinarith [mul_le_mul_of_nonneg_left h1 hw0, mul_nonneg hw0 (sub_nonneg.mpr hz.le),
    mul_nonneg (sub_nonneg.mpr hw1) (sub_nonneg.mpr hz.le)]

/-- C14: for alpha in [0, 1], when project reports (x, y, z) valid it reports (x, y, z')
valid for every z' > z, and a point with z = -w*rho exactly is reported invalid. -/
theorem project_valid_threshold (cam : UnifiedCamera ℝ) (p : Vec3 ℝ) (z' : ℝ)
    (ha0 : 0 ≤ cam.param_ 4) (ha1 : cam.param_ 4 ≤ 1) :
    ((cam.project Real.sqrt p).is_valid = true → p 2 < z' →
      (cam.project Real.sqrt (Function.update p 2 z')).is_valid = true) ∧
    (p 2 = -(if cam.param_ 4 > 1 / 2 then (1 - cam.param_ 4) / cam.param_ 4
              else cam.param_ 4 / (1 - cam.param_ 4))
            * Real.sqrt (p 0 * p 0 + p 1 * p 1 + p 2 * p 2) →
      (cam.project Real.sqrt p).is_valid = false) := by
  obtain ⟨hw0, hw1⟩ := project_w_mem _ ha0 ha1
  constructor
  · intro hv hz
    simp only [project, decide_eq_true_eq] at hv ⊢
    have h0 : Function.update p 2 z' 0 = p 0 := Function.update_noteq (by decide) _ _
    have h1 : Function.update p 2 z' 1 = p 1 := Function.update_noteq (by decide) _ _
    have h2 : Function.update p 2 z' 2 = z' := Function.update_same _ _ _
    rw [h0, h1, h2]
    exact project_valid_mono_core _ _ _ _ _ hw0 hw1 hz hv
  · intro hb
    simp only [project, decide_eq_false_iff_not]
    exact fun h => absurd hb (ne_of_gt h)

/-- C14 at alpha = 0.7 (camera [1, 1, 0, 0, 7/10], w = 3/7): the point (6, 2, -3) with
rho = 7 lies on the boundary and is invalid; (0, 0, 1) is valid and so is (0, 0, 2). -/
theorem project_valid_threshold_witness :
    (project Real.sqrt ⟨![1, 1, 0, 0, 7 / 10]⟩ ![6, 2, -3]).is_valid = false ∧
    (project Real.sqrt ⟨![1, 1, 0, 0, 7 / 10]⟩ (Function.update ![0, 0, 1] 2 2)).is_valid
      = true :=
  have h49 : Real.sqrt 49 = 7 := by
    rw [show (49 : ℝ) = 7 * 7 by norm_num]
    exact Real.sqrt_mul_self (by norm_num)
  ⟨(project_valid_threshold ⟨![1, 1, 0, 0, 7 / 10]⟩ ![6, 2, -3] 0
      (by simp; norm_num) (by simp; norm_num)).2
      (by simp; norm_num; rw [h49]; norm_num),
   (project_valid_threshold ⟨![1, 1, 0, 0, 7 / 10]⟩ ![0, 0, 1] 2
      (by simp; norm_num) (by simp; norm_num)).1
      (by simp [project]; norm_num) (by simp)⟩

/-- A valid projection with alpha in [0, 1] has rho > 0 and norm > 0. -/
theorem project_valid_pos (α x y z : ℝ) (ha0 : 0 ≤ α) (ha1 : α ≤ 1)
    (hv : z > -(if α > 1 / 2 then (1 - α) / α else α / (1 - α)) *
      Real.sqrt (x * x + y * y + z * z)) :
    0 < Real.sqrt (x * x + y * y + z * z) ∧
    0 < α * Real.sqrt (x * x + y * y + z * z) + (1 - α) * z := by
  rcases ha1.lt_or_eq with h | h
  · exact ⟨(project_valid_core α x y z ha0 h hv).1, (project_valid_core α x y z ha0 h hv).2.1⟩
  · subst h
    norm_num at hv
    have hpos : 0 < Real.sqrt (x * x + y * y + z * z) :=
      Real.sqrt_pos.mpr (by nlinarith [mul_self_nonneg x, mul_self_nonneg y, mul_pos hv hv])
    exact ⟨hpos, by simpa using hpos⟩

/-- C16: for alpha in [0, 1], a point that project reports valid has rho > 0 and
norm = alpha*rho + (1 - alpha)*z > 0, so the Jacobian denominator norm*norm*rho is not
zero, and the point is not the origin. -/
theorem project_valid_no_division_by_zero (cam : UnifiedCamera ℝ) (p : Vec3 ℝ)
    (ha0 : 0 ≤ cam.param_ 4) (ha1 : cam.param_ 4 ≤ 1)
    (hv : (cam.project Real.sqrt p).is_valid = true) :
    0 < Real.sqrt (p 0 * p 0 + p 1 * p 1 + p 2 * p 2) ∧
    0 < cam.param_ 4 * Real.sqrt (p 0 * p 0 + p 1 * p 1 + p 2 * p 2)
        + (1 - cam.param_ 4) * p 2 ∧
    (cam.param_ 4 * Real.sqrt (p 0 * p 0 + p 1 * p 1 + p 2 * p 2) + (1 - cam.param_ 4) * p 2)
      * (cam.param_ 4 * Real.sqrt (p 0 * p 0 + p 1 * p 1 + p 2 * p 2) + (1 - cam.param_ 4) * p 2)
      * Real.sqrt (p 0 * p 0 + p 1 * p 1 + p 2 * p 2) ≠ 0 ∧
    ¬ (p 0 = 0 ∧ p 1 = 0 ∧ p 2 = 0) := by
  simp only [project, decide_eq_true_eq] at hv
  obtain ⟨hrho, hn⟩ := project_valid_pos _ _ _ _ ha0 ha1 hv
  refine ⟨hrho, hn, (mul_pos (mul_pos hn hn) hrho).ne.symm, ?_⟩
  rintro ⟨h0, h1, h2⟩
  rw [h0, h1, h2] at hrho
  simp at hrho

/-- C16 at the Euroc test camera and the point (0.1, 0.2, 1.0). -/
theorem project_valid_no_division_by_zero_witness :
    0 < Real.sqrt ((0.1 : ℝ) * 0.1 + 0.2 * 0.2 + 1.0 * 1.0) ∧
    ¬ ((![0.1, 0.2, 1.0] : Vec3 ℝ) 0 = 0 ∧ (![0.1, 0.2, 1.0] : Vec3 ℝ) 1 = 0 ∧
        (![0.1, 0.2, 1.0] : Vec3 ℝ) 2 = 0) :=
  have h := project_valid_no_division_by_zero testProjectionEuroc ![0.1, 0.2, 1.0]
    (by simp [testProjectionEuroc]; norm_num) (by simp [testProjectionEuroc]; norm_num)
    euroc_point_valid
  ⟨h.1, h.2.2.2⟩

/-! C17, C18, C19: unproject after project, unit length, scaling -/

/-- At a projected point with alpha > 1/2 the r2 of unproject is below 1 / (2 alpha - 1). -/
theorem projected_r2_core (α x y z rho : ℝ) (ha : 1 / 2 < α) (ha1 : α < 1)
    (hrho2 : rho * rho = x * x + y * y + z * z)
    (hn : 0 < α * rho + (1 - α) * z) (hq : 0 < (1 - α) * rho + α * z) :
    (1 - α) * (x / (α * rho + (1 - α) * z)) * ((1 - α) * (x / (α * rho + (1 - α) * z))) +
      (1 - α) * (y / (α * rho + (1 - α) * z)) * ((1 - α) * (y / (α * rho + (1 - α) * z)))
      < 1 / (2 * α - 1) := by
  have h2a : 0 < 2 * α - 1 := by linarith
  have hn0 := hn.ne.symm
  have key : (α * rho + (1 - α) * z) ^ 2 - (2 * α - 1) * (x * x + y * y)
      = ((1 - α) * rho + α * z) ^ 2 := by
    linear_combination (2 * α - 1) * hrho2
  have hq2 : 0 < ((1 - α) * rho + α * z) ^ 2 := pow_pos hq 2
  have hs : 0 ≤ x * x + y * y := add_nonneg (mul_self_nonneg x) (mul_self_nonneg y)
  have e : (1 - α) * (x / (α * rho + (1 - α) * z)) * ((1 - α) * (x / (α * rho + (1 - α) * z))) +
      (1 - α) * (y / (α * rho + (1 - α) * z)) * ((1 - α) * (y / (α * rho + (1 - α) * z)))
      = (1 - α) ^ 2 * (x * x + y * y) / (α * rho + (1 - α) * z) ^ 2 := by
    field_simp
    ring
  rw [e, lt_div_iff₀ h2a, div_mul_eq_mul_div, div_lt_one (pow_pos hn 2)]
  have h1 : (1 - α) ^ 2 ≤ 1 := by nlinarith
  nlinarith [mul_nonneg (mul_nonneg h2a.le hs) (sub_nonneg.mpr h1)]

/-- C17: for fx ≠ 0, fy ≠ 0 and 0 ≤ alpha < 1, when project reports a 3D point valid,
unproject reports the projected 2D point valid. -/
theorem project_then_unproject_valid (cam : UnifiedCamera ℝ) (p : Vec3 ℝ)
    (hfx : cam.param_ 0 ≠ 0) (hfy : cam.param_ 1 ≠ 0)
    (ha0 : 0 ≤ cam.param_ 4) (ha1 : cam.param_ 4 < 1)
    (hv : (cam.project Real.sqrt p).is_valid = true) :
    (cam.unproject Real.sqrt (cam.project Real.sqrt p).proj).is_valid = true := by
  simp only [project, decide_eq_true_eq] at hv
  obtain ⟨-, hn, hq⟩ := project_valid_core _ _ _ _ ha0 ha1 hv
  have hrho2 := Real.mul_self_sqrt
    (show 0 ≤ p 0 * p 0 + p 1 * p 1 + p 2 * p 2 by
      nlinarith [mul_self_nonneg (p 0), mul_self_nonneg (p 1), mul_self_nonneg (p 2)])
  have hx : ∀ f c t : ℝ, f ≠ 0 → (f * t + c - c) / f = t := by
    intro f c t hf; field_simp
  rw [unproject_is_valid_eq]
  by_cases ha : cam.param_ 4 > 1 / 2
  · have hr := projected_r2_core _ (p 0) (p 1) (p 2) _ ha ha1 hrho2 hn hq
    have hr' : ¬ (unproject_r2 cam (cam.project Real.sqrt p).proj ≥ 1 / (2 * cam.param_ 4 - 1)) := by
      simp only [unproject_r2, project, Matrix.cons_val_zero, Matrix.cons_val_one,
        Matrix.head_cons, hx _ _ _ hfx, hx _ _ _ hfy]
      exact not_le.mpr hr
    simp only [hr', decide_False, Bool.and_false, Bool.not_false]
  · simp only [ha, decide_False, Bool.false_and, Bool.not_false]

/-- C17 at the Euroc test camera and the point (0.1, 0.2, 1.0). -/
theorem project_then_unproject_valid_witness :
    ((testProjectionEuroc (S := ℝ)).unproject Real.sqrt
      ((testProjectionEuroc (S := ℝ)).project Real.sqrt ![0.1, 0.2, 1.0]).proj).is_valid
      = true :=
  project_then_unproject_valid testProjectionEuroc ![0.1, 0.2, 1.0]
    (by simp [testProjectionEuroc]; norm_num) (by simp [testProjectionEuroc]; norm_num)
    (by simp [testProjectionEuroc]; norm_num) (by simp [testProjectionEuroc]; norm_num)
    euroc_point_valid

/-- The squared length of the unprojected vector, with n the square root of the radicand. -/
theorem unit_norm_core (xi a b n : ℝ) (hn : n * n = 1 + (1 - xi * xi) * (a * a + b * b)) :
    ((xi + n) / (1 + (a * a + b * b)) * a) ^ 2 + ((xi + n) / (1 + (a * a + b * b)) * b) ^ 2
      + ((xi + n) / (1 + (a * a + b * b)) - xi) ^ 2 = 1 := by
  have hm : (1 : ℝ) + (a * a + b * b) ≠ 0 := by
    have := mul_self_nonneg a
    have := mul_self_nonneg b
    linarith
  field_simp
  linear_combination (1 + (a * a + b * b)) * hn

/-- C18: for alpha ≠ 1 and a 2D point with non-negative radicand, the vector
(k*mx, k*my, k - xi) returned by unproject has squared length 1. -/
theorem unproject_unit_norm (cam : UnifiedCamera ℝ) (uv : Vec2 ℝ)
    (_ha : cam.param_ 4 ≠ 1) (hrad : 0 ≤ unproject_radicand cam uv) :
    (cam.unproject Real.sqrt uv).p3d 0 ^ 2 + (cam.unproject Real.sqrt uv).p3d 1 ^ 2
      + (cam.unproject Real.sqrt uv).p3d 2 ^ 2 = 1 := by
  have hn := Real.mul_self_sqrt hrad
  simp only [unproject_radicand, unproject_r2] at hn
  simp only [unproject, Matrix.cons_val_zero, Matrix.cons_val_one, Matrix.head_cons,
    Matrix.cons_val_two, Matrix.tail_cons]
  exact unit_norm_core _ _ _ _ hn

/-- C18 at the camera [2, 3, 10, 20, 1/2] and the 2D point (11, 22), where the
radicand is 1. -/
theorem unproject_unit_norm_witness :
    (unproject Real.sqrt ⟨![2, 3, 10, 20, 1 / 2]⟩ ![11, 22]).p3d 0 ^ 2
      + (unproject Real.sqrt ⟨![2, 3, 10, 20, 1 / 2]⟩ ![11, 22]).p3d 1 ^ 2
      + (unproject Real.sqrt ⟨![2, 3, 10, 20, 1 / 2]⟩ ![11, 22]).p3d 2 ^ 2 = 1 :=
  unproject_unit_norm ⟨![2, 3, 10, 20, 1 / 2]⟩ ![11, 22] (by simp)
    (by simp [unproject_radicand, unproject_r2]; norm_num)

/-- The length of a scaled point. -/
theorem rho_scale (s x y z : ℝ) (hs : 0 < s) :
    Real.sqrt (s * x * (s * x) + s * y * (s * y) + s * z * (s * z))
      = s * Real.sqrt (x * x + y * y + z * z) := by
  have e : s * x * (s * x) + s * y * (s * y) + s * z * (s * z)
      = s * s * (x * x + y * y + z * z) := by ring
  rw [e, Real.sqrt_mul (mul_self_nonneg s), Real.sqrt_mul_self hs.le]

/-- C19: for s > 0, project reports the same flag for s*p as for p, and returns the
same 2D point whenever norm(p) = alpha*rho + (1 - alpha)*z is not zero. -/
theorem project_scale_invariant (cam : UnifiedCamera ℝ) (p : Vec3 ℝ) (s : ℝ) (hs : 0 < s) :
    (cam.project Real.sqrt (fun i => s * p i)).is_valid = (cam.project Real.sqrt p).is_valid ∧
    (cam.param_ 4 * Real.sqrt (p 0 * p 0 + p 1 * p 1 + p 2 * p 2) + (1 - cam.param_ 4) * p 2 ≠ 0 →
      (cam.project Real.sqrt (fun i => s * p i)).proj = (cam.project Real.sqrt p).proj) := by
  have hN : ∀ a r z : ℝ, a * (s * r) + (1 - a) * (s * z) = s * (a * r + (1 - a) * z) := by
    intro a r z; ring
  constructor
  · simp only [project, rho_scale _ _ _ _ hs]
    rw [decide_eq_decide]
    have e : ∀ w r : ℝ, -w * (s * r) = s * (-w * r) := by intro w r; ring
    rw [e]
    exact mul_lt_mul_left hs
  · intro _
    simp only [project, rho_scale _ _ _ _ hs, hN, mul_div_mul_left _ _ hs.ne.symm]

/-- C19 at the Euroc test camera, the point (0.1, 0.2, 1.0) and the scale 2. -/
theorem project_scale_invariant_witness :
    ((testProjectionEuroc (S := ℝ)).project Real.sqrt
        (fun i => 2 * (![0.1, 0.2, 1.0] : Vec3 ℝ) i)).is_valid
      = ((testProjectionEuroc (S := ℝ)).project Real.sqrt ![0.1, 0.2, 1.0]).is_valid :=
  (project_scale_invariant testProjectionEuroc ![0.1, 0.2, 1.0] 2 (by norm_num)).1

end UnifiedCamera

end basalt
